import Mathlib

/-!
Shallow embedding of `uptane_banners.py` (function `print_banner` and the
helpers it relies on).  The side-effecting calls (`clear_screen`, `print`,
`play`, `time.sleep`) are modelled as an ordered event trace; a Python
exception is modelled as the trace emitted before the raise together with
the raised error.  The call `textwrap.wrap(line, width)` is modelled after
CPython's `textwrap` module with its default options (`expand_tabs`,
`replace_whitespace`, `drop_whitespace`, `break_long_words` all on,
`initial_indent = subsequent_indent = ""`): `_munge_whitespace`, the
`wordsep_re` chunk splitter and `_wrap_chunks` are each reproduced below.
The splitter follows the 2.x `textwrap` contemporary with the source
(January 2017, `#!/usr/bin/env python`); later versions reorganised the
hyphen handling, but on hyphen-free text — which is all the theorems
below ever rely on — every CPython version splits identically into
maximal whitespace and non-whitespace runs.
Recursions that are not structural in Python (the scanner loop and the
`_wrap_chunks` outer loop) are written with an explicit step-count bound
computed from the input — the input length plus one for the scanner, the
total chunk character count plus chunk count plus one for the wrap loop.
Every iteration consumes at least one character or chunk (the measure
decrease is proved as part of `wrapLine_spec` below), so the exhaustion
branch is unreachable at those bounds, and the definitions stay
executable by kernel reduction.
-/

namespace UptaneBanners

/-! ### Character classes (Python `re` on ASCII `str`, no Unicode flags) -/

/-- Python regex `\s` / the `string.whitespace` characters. -/
def isPyWs (c : Char) : Bool :=
  c = ' ' || c = '\t' || c = '\n' || c = '\x0b' || c = '\x0c' || c = '\r'

/-- Python regex `\w` on a byte string: `[a-zA-Z0-9_]`. -/
def isWordChar (c : Char) : Bool :=
  ('a' ≤ c && c ≤ 'z') || ('A' ≤ c && c ≤ 'Z') || ('0' ≤ c && c ≤ '9') || c = '_'

/-- Python regex `[^0-9\W]`: a word character that is not a digit. -/
def isLetterUnd (c : Char) : Bool :=
  isWordChar c && !('0' ≤ c && c ≤ '9')

/-- Python regex `[^\s\w]`: neither whitespace nor a word character. -/
def isPunct (c : Char) : Bool :=
  !isPyWs c && !isWordChar c

/-- The character class `[\w\!\"\'\&\.\,\?]` of the em-dash look-behind. -/
def isEmdashPre (c : Char) : Bool :=
  isWordChar c || c = '!' || c = '\x22' || c = '\x27' || c = '&' || c = '.' || c = ',' || c = '?'

/-! ### `str.expandtabs` and `TextWrapper._munge_whitespace` -/

/-- CPython `str.expandtabs()` with tab size 8: a tab becomes spaces up to
the next multiple-of-8 column; a newline or carriage return resets the
column counter. -/
def expandTabsGo : Nat → List Char → List Char
  | _, [] => []
  | col, c :: cs =>
    if c = '\t' then
      List.replicate (8 - col % 8) ' ' ++ expandTabsGo (col + (8 - col % 8)) cs
    else if c = '\n' || c = '\r' then c :: expandTabsGo 0 cs
    else c :: expandTabsGo (col + 1) cs

/-- `TextWrapper._munge_whitespace` with the default options: expand tabs,
then translate every whitespace character to a plain space. -/
def mungeWhitespace (s : List Char) : List Char :=
  (expandTabsGo 0 s).map (fun c => if isPyWs c then ' ' else c)

/-! ### The `wordsep_re` chunk splitter (`TextWrapper._split`) -/

/-- Second alternative of `wordsep_re`,
`[^\s\w]*\w+[^0-9\W]-(?=\w+[^0-9\W])` (hyphenated words): a maximal run of
punctuation, then a maximal run of at least two word characters whose last
character is a letter or underscore, then a literal hyphen, provided the
text after the hyphen starts with word characters among which some
character at index at least one is a letter or underscore. -/
def matchHyphenated (cs : List Char) : Option (List Char × List Char) :=
  let p := cs.takeWhile isPunct
  let r1 := cs.dropWhile isPunct
  let w := r1.takeWhile isWordChar
  let r2 := r1.dropWhile isWordChar
  if 2 ≤ w.length && (match w.getLast? with | some c => isLetterUnd c | none => false) then
    match r2 with
    | c :: rest =>
      if c = '-' then
        if ((rest.takeWhile isWordChar).drop 1).any isLetterUnd then
          some (p ++ w ++ ['-'], rest)
        else none
      else none
    | [] => none
  else none

/-- Third alternative of `wordsep_re`, `(?<=[\w\!\"\'\&\.\,\?])-{2,}(?=\w)`
(em-dashes): a maximal run of at least two hyphens, preceded by a word or
listed punctuation character and followed by a word character. -/
def matchEmdash (prev : Option Char) (cs : List Char) : Option (List Char × List Char) :=
  match prev with
  | none => none
  | some pc =>
    if isEmdashPre pc then
      let d := cs.takeWhile (fun c => c = '-')
      let rest := cs.dropWhile (fun c => c = '-')
      if 2 ≤ d.length then
        match rest with
        | c :: _ => if isWordChar c then some (d, rest) else none
        | [] => none
      else none
    else none

/-- Left-to-right scan of `wordsep_re.split(text)`: at each position the
alternatives are tried in order (whitespace run, hyphenated word,
em-dash); a match emits the pending unmatched piece and the matched group,
and scanning resumes after the match.  `prev` is the character preceding
the current position (for the em-dash look-behind), `pend` the pending
piece in reverse.  Every recursive call consumes at least one character,
so the step bound `length + 1` used by `pySplitChunks` is never hit. -/
def scanGo : Nat → Option Char → List Char → List Char → List (List Char)
  | 0, _, pend, rest => [pend.reverse ++ rest]
  | _ + 1, _, pend, [] => [pend.reverse]
  | fuel + 1, prev, pend, c :: rest =>
    if isPyWs c then
      let run := c :: rest.takeWhile isPyWs
      pend.reverse :: run :: scanGo fuel run.getLast? [] (rest.dropWhile isPyWs)
    else
      match matchHyphenated (c :: rest) with
      | some (chunk, rest1) => pend.reverse :: chunk :: scanGo fuel chunk.getLast? [] rest1
      | none =>
        match matchEmdash prev (c :: rest) with
        | some (chunk, rest1) => pend.reverse :: chunk :: scanGo fuel chunk.getLast? [] rest1
        | none => scanGo fuel (some c) (c :: pend) rest

/-- `TextWrapper._split`: split into chunks and drop the empty strings
(`filter(None, chunks)`). -/
def pySplitChunks (s : List Char) : List (List Char) :=
  (scanGo (s.length + 1) none [] s).filter (fun c => !c.isEmpty)

/-! ### `TextWrapper._wrap_chunks` -/

/-- Sum of the chunk lengths (Python `cur_len`). -/
def sumLen (cs : List (List Char)) : Nat := cs.foldr (fun c n => c.length + n) 0

/-- Python `chunk.strip() == ''`: the chunk is entirely whitespace. -/
def isWsChunk (c : List Char) : Bool := c.all isPyWs

/-- The greedy inner loop of `_wrap_chunks`: pop chunks onto the current
line while the accumulated length stays within the width. -/
def greedyTake (width : Nat) : Nat → List (List Char) → List (List Char) × List (List Char)
  | _, [] => ([], [])
  | curLen, c :: cs =>
    if curLen + c.length ≤ width then
      let p := greedyTake width (curLen + c.length) cs
      (c :: p.1, p.2)
    else ([], c :: cs)

/-- Python `del cur_line[-1]` guarded by `cur_line[-1].strip() == ''`:
drop the last chunk of the line if it is entirely whitespace. -/
def dropLastWs (cur : List (List Char)) : List (List Char) :=
  match cur.getLast? with
  | some l => if isWsChunk l then cur.dropLast else cur
  | none => cur

/-- The body of one `_wrap_chunks` outer-loop iteration, after the
leading-whitespace drop: greedily fill the line, break a following
over-long chunk (`_handle_long_word` with `break_long_words`), drop a
trailing whitespace chunk, and emit the line if it is non-empty.
Returns the emitted line (if any) and the remaining chunks. -/
def wrapLine (width : Nat) (chunks1 : List (List Char)) :
    Option (List Char) × List (List Char) :=
  match chunks1 with
  | [] => (none, [])
  | d :: ds =>
    let gt := greedyTake width 0 (d :: ds)
    let curLen := sumLen gt.1
    let cr :=
      match gt.2 with
      | [] => (gt.1, ([] : List (List Char)))
      | r :: rs =>
        if width < r.length then
          let spaceLeft := if width < 1 then 1 else width - curLen
          (gt.1 ++ [r.take spaceLeft], r.drop spaceLeft :: rs)
        else (gt.1, r :: rs)
    let cur3 := dropLastWs cr.1
    (if cur3.isEmpty then none else some cur3.flatten, cr.2)

/-- One iteration of the `_wrap_chunks` outer loop: drop a leading
whitespace chunk (only once a line has been emitted), then `wrapLine`. -/
def wrapStep (width : Nat) (started : Bool) (chunks : List (List Char)) :
    Option (List Char) × List (List Char) :=
  match chunks with
  | [] => (none, [])
  | c0 :: cs0 =>
    wrapLine width (if started && isWsChunk c0 then cs0 else c0 :: cs0)

/-- Per-iteration weight of the chunk list; each `wrapStep` on a nonempty
list strictly decreases it, so the step bound used by `wrapChunks` is
never hit. -/
def chunkMeasure (cs : List (List Char)) : Nat := cs.foldr (fun c n => c.length + 1 + n) 0

/-- The `_wrap_chunks` outer loop, iterated at most `fuel` times. -/
def wrapGo (width : Nat) : Nat → Bool → List (List Char) → List (List Char)
  | 0, _, _ => []
  | fuel + 1, started, chunks =>
    match chunks with
    | [] => []
    | c0 :: cs0 =>
      match wrapStep width started (c0 :: cs0) with
      | (none, rest) => wrapGo width fuel started rest
      | (some line, rest) => line :: wrapGo width fuel true rest

/-- `TextWrapper._wrap_chunks` for a positive width. -/
def wrapChunks (width : Nat) (chunks : List (List Char)) : List (List Char) :=
  wrapGo width (chunkMeasure chunks + 1) false chunks

/-- `textwrap.wrap(text, width)` with the default options.  `_wrap_chunks`
raises `ValueError` when `width <= 0` (modelled as `none`); otherwise the
text is munged, split into chunks and greedily wrapped. -/
def pyWrap (width : Int) (s : List Char) : Option (List (List Char)) :=
  if width ≤ 0 then none
  else some (wrapChunks width.toNat (pySplitChunks (mungeWhitespace s)))

/-- `textwrap.wrap` at the `String` level. -/
def pyWrapStr (width : Int) (s : String) : Option (List String) :=
  (pyWrap width s.data).map (fun ls => ls.map (fun l => String.mk l))

/-! ### Whitespace-delimited words (Python `str.split()` with no argument) -/

/-- Accumulating pass: `acc` holds the current word reversed. -/
def pyWordsAux : List Char → List Char → List (List Char)
  | acc, [] => if acc.isEmpty then [] else [acc.reverse]
  | acc, c :: cs =>
    if isPyWs c then
      if acc.isEmpty then pyWordsAux [] cs else acc.reverse :: pyWordsAux [] cs
    else pyWordsAux (c :: acc) cs

/-- The maximal non-whitespace runs of a string, in order. -/
def pyWords (s : List Char) : List (List Char) := pyWordsAux [] s

/-- Words of a `String`. -/
def pyWordsStr (s : String) : List String := (pyWords s.data).map (fun l => String.mk l)

/-- Maximal runs of same-class (whitespace / non-whitespace) characters;
`acc` holds the current run reversed. -/
def runsAux : List Char → List Char → List (List Char)
  | acc, [] => if acc.isEmpty then [] else [acc.reverse]
  | acc, c :: cs =>
    match acc with
    | [] => runsAux [c] cs
    | a :: as =>
      if isPyWs a = isPyWs c then runsAux (c :: a :: as) cs
      else (a :: as).reverse :: runsAux [c] cs

/-- Alternating decomposition of a string into maximal whitespace and
non-whitespace runs; for hyphen-free text this is exactly what the
`wordsep_re` splitter produces. -/
def simpleRuns (s : List Char) : List (List Char) := runsAux [] s

/-! ### Remaining string helpers of `print_banner` -/

/-- Python `"\n".split` behaviour used for a string `text` argument:
split at every newline, keeping empty pieces. -/
def pySplitNLAux : List Char → List Char → List (List Char)
  | acc, [] => [acc.reverse]
  | acc, c :: cs =>
    if c = '\n' then acc.reverse :: pySplitNLAux [] cs
    else pySplitNLAux (c :: acc) cs

/-- `s.split("\n")` on a `String`. -/
def pySplitNL (s : String) : List String :=
  (pySplitNLAux [] s.data).map (fun l => String.mk l)

/-- A run of `n` spaces (Python `n * " "`, empty for a non-positive
count). -/
def spaces (n : Nat) : String := String.mk (List.replicate n ' ')

/-- Python `str.format` centering `{:^{width}}`: pad with spaces, the
extra column (odd total padding) going to the right; a string at least as
wide as the field is returned unchanged. -/
def pyCenterFmt (s : List Char) (width : Nat) : List Char :=
  if width ≤ s.length then s
  else
    List.replicate ((width - s.length) / 2) ' ' ++ s ++
      List.replicate ((width - s.length) - (width - s.length) / 2) ' '

/-! ### The escape-code constants of the module -/

/-- Font color escape sequence `RED`. -/
def RED : String := "\x1b[31m"

/-- Font color escape sequence `GREEN`. -/
def GREEN : String := "\x1b[32m"

/-- Font color escape sequence `YELLOW`. -/
def YELLOW : String := "\x1b[33m"

/-- Font color escape sequence `BLUE`. -/
def BLUE : String := "\x1b[34m"

/-- Font color escape sequence `MAGENTA`. -/
def MAGENTA : String := "\x1b[35m"

/-- Font color escape sequence `CYAN`. -/
def CYAN : String := "\x1b[36m"

/-- Font color escape sequence `WHITE`. -/
def WHITE : String := "\x1b[97m"

/-- Background color escape sequence `BLACK_BG`. -/
def BLACK_BG : String := "\x1b[40m"

/-- Background color escape sequence `RED_BG`. -/
def RED_BG : String := "\x1b[41m"

/-- Background color escape sequence `GRAY_BG`. -/
def GRAY_BG : String := "\x1b[100m"

/-- The reset escape sequence `RESET_COLOR`. -/
def RESET_COLOR : String := "\x1b[0m"

/-! ### The render model of `print_banner` -/

/-- Observable side effects of `print_banner`, in order: clearing the
terminal, printing one line, playing a sound (blocking), sleeping. -/
inductive Event : Type
  | clearScreen : Event
  | printLine : String → Event
  | playSound : String → Event
  | sleep : Nat → Event
  deriving DecidableEq, Repr

/-- The exceptions `print_banner` can raise: the two explicit `raise`
statements, the `ValueError` of `textwrap` on a non-positive width, and
the `ValueError` of `max()` on an empty banner array. -/
inductive PyError : Type
  | bannerTooWide : PyError
  | textTooTall : PyError
  | invalidWidth : Int → PyError
  | emptyBanner : PyError
  deriving DecidableEq, Repr

/-- The `text` argument: Python `False` (default), a string, or a list of
strings. -/
inductive TextArg : Type
  | noText : TextArg
  | ofString : String → TextArg
  | ofList : List String → TextArg
  deriving DecidableEq, Repr

/-- Python truthiness of the `text` argument (`if text:`). -/
def TextArg.truthy : TextArg → Bool
  | .noText => false
  | .ofString s => s ≠ ""
  | .ofList l => !l.isEmpty

/-- Normalisation `if not isinstance(text, list): text = text.split("\n")`. -/
def TextArg.toLines : TextArg → List String
  | .noText => []
  | .ofString s => pySplitNL s
  | .ofList l => l

/-- Python truthiness of an optional string argument (`color`, `color_bg`,
`sound`). -/
def optTruthy : Option String → Bool
  | none => false
  | some s => s ≠ ""

/-- Python truthiness of the numeric `show_for` argument. -/
def natTruthy : Option Nat → Bool
  | none => false
  | some n => n ≠ 0

/-- The arguments of `print_banner` after the terminal-size query. -/
structure RenderArgs : Type where
  banner : List String
  showFor : Option Nat
  color : Option String
  colorBg : Option String
  text : TextArg
  sound : Option String
  deriving DecidableEq, Repr

/-- `len(max(banner_array, key=len))`: length of the longest line. -/
def bannerWidth (banner : List String) : Nat :=
  banner.foldr (fun l n => max l.length n) 0

/-- The left padding computed by `print_banner`: zero when the banner is
exactly as wide as the terminal, otherwise `int((cols - banner_width) / 2)`. -/
def leftFill (bw cols : Nat) : Nat :=
  if bw = cols then 0 else (cols - bw) / 2

/-- One banner output line: pad to the full terminal width
(`right_fill = cols - left_fill - len(line)`), then prefix the font color,
then the background color, then append one reset if any color is set. -/
def formatBannerLine (color colorBg : Option String) (lf cols : Nat) (line : String) : String :=
  let o1 := spaces lf ++ line ++ spaces (cols - lf - line.length)
  let o2 := if optTruthy color then color.getD "" ++ o1 else o1
  let o3 := if optTruthy colorBg then colorBg.getD "" ++ o2 else o2
  if optTruthy color || optTruthy colorBg then o3 ++ RESET_COLOR else o3

/-- One text output line: a ten-space margin on either side (each wrapped
in the background color and a reset when `color_bg` is set) around the
line centered in a field of width `cols - 2 * 10`. -/
def formatTextLine (colorBg : Option String) (cols : Nat) (line : String) : String :=
  let m := if optTruthy colorBg then colorBg.getD "" ++ spaces 10 ++ RESET_COLOR else spaces 10
  m ++ String.mk (pyCenterFmt line.data (cols - 2 * 10)) ++ m

/-- The loop `for line in text: text_array += textwrap.wrap(line, width)`;
the `ValueError` of a non-positive width propagates from the first
iteration. -/
def wrapAll (width : Int) (lines : List String) : Option (List String) :=
  match lines with
  | [] => some []
  | l :: ls =>
    (pyWrapStr width l).bind (fun ws => (wrapAll width ls).map (fun rest => ws ++ rest))

/-- The sound events emitted at the end of `print_banner`
(`play(sound, True)` when `sound` is truthy). -/
def soundEvents (sound : Option String) : List Event :=
  if optTruthy sound then [Event.playSound (sound.getD "")] else []

/-- The sleep-and-clear events emitted at the end of `print_banner`
(`time.sleep(show_for); clear_screen()` when `show_for` is truthy). -/
def sleepEvents (showFor : Option Nat) : List Event :=
  if natTruthy showFor then [Event.sleep ((showFor.getD 0)), Event.clearScreen] else []

/-- The bottom-fill events: when `color_bg` is truthy,
`rows - (len(banner_array) + len(text_array)) - 1` full-width background
lines (an empty range when that count is not positive). -/
def fillEvents (colorBg : Option String) (rows cols bLen tLen : Nat) : List Event :=
  if optTruthy colorBg then
    List.replicate ((rows : Int) - (bLen + tLen) - 1).toNat
      (Event.printLine (colorBg.getD "" ++ spaces cols ++ RESET_COLOR))
  else []

/-- Tail of `print_banner` after the banner and text lines are printed:
bottom fill, sound, sleep-and-clear. -/
def renderTail (a : RenderArgs) (rows cols tLen : Nat) : List Event :=
  fillEvents a.colorBg rows cols a.banner.length tLen ++
    soundEvents a.sound ++ sleepEvents a.showFor

/-- The `print` events of the banner loop: one line per banner line,
formatted with the common left fill. -/
def bannerEvents (a : RenderArgs) (cols : Nat) : List Event :=
  a.banner.map (fun l =>
    Event.printLine (formatBannerLine a.color a.colorBg (leftFill (bannerWidth a.banner) cols) cols l))

/-- The `print` events of the text loop: one line per wrapped text line. -/
def textEvents (a : RenderArgs) (cols : Nat) (textArr : List String) : List Event :=
  textArr.map (fun l => Event.printLine (formatTextLine a.colorBg cols l))

/-- The text section of `print_banner`, applied to the result of the
wrapping loop: a `ValueError` from `textwrap` propagates after the banner
lines were already printed; otherwise the height check runs, and on
success the wrapped lines are printed followed by the tail. -/
def renderWithText (a : RenderArgs) (rows cols : Nat) : Option (List String) → List Event × Option PyError
  | none =>
    (Event.clearScreen :: bannerEvents a cols, some (PyError.invalidWidth ((cols : Int) - 2 * 10)))
  | some textArr =>
    if rows < a.banner.length + textArr.length then
      (Event.clearScreen :: bannerEvents a cols, some PyError.textTooTall)
    else
      (Event.clearScreen :: (bannerEvents a cols ++ textEvents a cols textArr ++
        renderTail a rows cols textArr.length), none)

/-- The whole of `print_banner` for given terminal dimensions: the events
emitted in order, together with the exception that aborted the run, if
any.  The width check precedes the screen clear; the height check is only
performed (and the text only wrapped) when `text` is truthy; the bottom
fill is only emitted when `color_bg` is truthy.  An empty banner array
makes `max(banner_array, key=len)` raise before anything happens. -/
def render (a : RenderArgs) (rows cols : Nat) : List Event × Option PyError :=
  if a.banner.isEmpty then ([], some PyError.emptyBanner)
  else if cols < bannerWidth a.banner then ([], some PyError.bannerTooWide)
  else if a.text.truthy then
    renderWithText a rows cols (wrapAll ((cols : Int) - 2 * 10) a.text.toLines)
  else
    (Event.clearScreen :: (bannerEvents a cols ++ renderTail a rows cols 0), none)

/-- Number of printed lines in a trace (the `print` calls, excluding
clears, sounds and sleeps). -/
def printedLines (evs : List Event) : Nat :=
  (evs.filter (fun e => match e with | Event.printLine _ => true | _ => false)).length

/-! ### Proof infrastructure: chunk classes and invariants

The remaining definitions are not part of the source model; they are the
predicates the word-conservation proof about `_wrap_chunks` is stated
with. -/

/-- A chunk made of non-whitespace characters only. -/
def nonWsChunk (c : List Char) : Bool := c.all (fun x => !isPyWs x)

/-- No two adjacent chunks are both non-whitespace (so joining the chunks
of one line cannot merge two words). -/
def altOK : List (List Char) → Bool
  | [] => true
  | [_] => true
  | a :: b :: t => (isWsChunk a || isWsChunk b) && altOK (b :: t)

/-- The word chunks of a chunk list, in order. -/
def chunkWords (cs : List (List Char)) : List (List Char) :=
  cs.filter (fun c => !isWsChunk c)

/-- Invariant of the chunk list maintained by the wrap loop on hyphen-free
text: chunks are nonempty, each all-whitespace or all-non-whitespace, no
two adjacent non-whitespace, and every word chunk fits the width. -/
def goodChunks (width : Nat) (cs : List (List Char)) : Prop :=
  (∀ c ∈ cs, c ≠ []) ∧
  (∀ c ∈ cs, isWsChunk c = true ∨ nonWsChunk c = true) ∧
  (∀ c ∈ cs, isWsChunk c = false → c.length ≤ width) ∧
  altOK cs = true

/-! ## Layout arithmetic -/

theorem spaces_length (n : Nat) : (spaces n).length = n := by
  show (List.replicate n ' ').length = n
  simp

theorem bannerWidth_cons (l : String) (bs : List String) :
    bannerWidth (l :: bs) = max l.length (bannerWidth bs) := rfl

theorem length_le_bannerWidth {l : String} {banner : List String} (h : l ∈ banner) :
    l.length ≤ bannerWidth banner := by
  induction banner with
  | nil => cases h
  | cons b bs ih =>
    rw [bannerWidth_cons]
    rcases List.mem_cons.mp h with h1 | h1
    · subst h1; exact le_max_left _ _
    · exact le_trans (ih h1) (le_max_right _ _)

theorem leftFill_add_le (bw cols : Nat) (h : bw ≤ cols) : leftFill bw cols + bw ≤ cols := by
  unfold leftFill
  split <;> omega

/-! ## The success trace of `render` -/

theorem render_success (a : RenderArgs) (rows cols : Nat) (hne : a.banner ≠ [])
    (hw : bannerWidth a.banner ≤ cols) (textArr : List String)
    (htext : (if a.text.truthy then wrapAll ((cols : Int) - 2 * 10) a.text.toLines
        else some []) = some textArr)
    (hht : a.text.truthy = true → a.banner.length + textArr.length ≤ rows) :
    render a rows cols =
      (Event.clearScreen :: (bannerEvents a cols ++ textEvents a cols textArr ++
        renderTail a rows cols textArr.length), none) := by
  unfold render
  rw [if_neg (by simpa using hne), if_neg (by omega)]
  by_cases ht : a.text.truthy = true
  · rw [if_pos ht]
    rw [if_pos ht] at htext
    rw [htext]
    simp only [renderWithText]
    rw [if_neg (by have := hht ht; omega)]
  · rw [if_neg ht]
    rw [if_neg ht] at htext
    have h0 : textArr = [] := by
      cases htext
      rfl
    subst h0
    simp [textEvents]

theorem render_success_inv (a : RenderArgs) (rows cols : Nat)
    (h : (render a rows cols).2 = none) :
    a.banner ≠ [] ∧ bannerWidth a.banner ≤ cols ∧
      ∃ textArr,
        (if a.text.truthy then wrapAll ((cols : Int) - 2 * 10) a.text.toLines
          else some []) = some textArr ∧
        (a.text.truthy = true → a.banner.length + textArr.length ≤ rows) := by
  unfold render at h
  by_cases h1 : a.banner.isEmpty
  · rw [if_pos h1] at h
    cases h
  by_cases h2 : cols < bannerWidth a.banner
  · rw [if_neg h1, if_pos h2] at h
    cases h
  rw [if_neg h1, if_neg h2] at h
  refine ⟨by simpa using h1, by omega, ?_⟩
  by_cases ht : a.text.truthy = true
  · rw [if_pos ht] at h
    cases hwa : wrapAll ((cols : Int) - 2 * 10) a.text.toLines with
    | none =>
      rw [hwa] at h
      simp only [renderWithText] at h
      cases h
    | some textArr =>
      rw [hwa] at h
      simp only [renderWithText] at h
      by_cases hh : rows < a.banner.length + textArr.length
      · rw [if_pos hh] at h
        cases h
      · exact ⟨textArr, by rw [if_pos ht], fun _ => by omega⟩
  · rw [if_neg ht] at h
    exact ⟨[], by rw [if_neg ht], fun hc => absurd hc ht⟩

/-- C1: for a non-empty banner fitting the terminal and no styling, every
emitted banner line is the original line between `leftFill` and
`rightFill = cols - leftFill - len(line)` spaces, `leftFill` is `0` when
the banner fills the width and `⌊(cols - bannerWidth) / 2⌋` otherwise,
and every emitted banner line is exactly `cols` characters long. -/
theorem C1_banner_centered (banner : List String) (rows cols : Nat) (hne : banner ≠ [])
    (hw : bannerWidth banner ≤ cols) :
    ((render ⟨banner, none, none, none, TextArg.noText, none⟩ rows cols).1 =
      Event.clearScreen :: banner.map (fun l => Event.printLine
        (spaces (leftFill (bannerWidth banner) cols) ++ l ++
          spaces (cols - leftFill (bannerWidth banner) cols - l.length)))) ∧
    (leftFill (bannerWidth banner) cols =
      if bannerWidth banner = cols then 0 else (cols - bannerWidth banner) / 2) ∧
    (∀ l ∈ banner, (spaces (leftFill (bannerWidth banner) cols) ++ l ++
        spaces (cols - leftFill (bannerWidth banner) cols - l.length)).length = cols) := by
  refine ⟨?_, rfl, ?_⟩
  · have h := render_success ⟨banner, none, none, none, TextArg.noText, none⟩ rows cols hne hw []
      (by simp [TextArg.truthy]) (by simp [TextArg.truthy])
    rw [h]
    simp only [textEvents, renderTail, fillEvents, soundEvents, sleepEvents, optTruthy, natTruthy,
      bannerEvents, formatBannerLine]
    simp [optTruthy]
  · intro l hl
    have hlw : l.length ≤ bannerWidth banner := length_le_bannerWidth hl
    have hlf : leftFill (bannerWidth banner) cols + bannerWidth banner ≤ cols :=
      leftFill_add_le _ _ hw
    rw [String.length_append, String.length_append, spaces_length, spaces_length]
    omega

/-- Witness for C1 at the spec's own example: banner `["AB"]`, 6 columns,
output line `"  AB  "`. -/
theorem C1_witness :
    (render ⟨["AB"], none, none, none, TextArg.noText, none⟩ 1 6).1 =
      [Event.clearScreen, Event.printLine "  AB  "] ∧ ("  AB  ").length = 6 := by
  have h := C1_banner_centered ["AB"] 1 6 (by decide) (by decide)
  refine ⟨?_, by decide⟩
  rw [h.1]
  decide

/-- C2: a banner strictly wider than the terminal makes `render` fail with
the "banner too wide" error before the clear and before any output line
(the trace is empty); a banner that fits never produces that error. -/
theorem C2_too_wide (a : RenderArgs) (rows cols : Nat) :
    (cols < bannerWidth a.banner → render a rows cols = ([], some PyError.bannerTooWide)) ∧
    (bannerWidth a.banner ≤ cols → (render a rows cols).2 ≠ some PyError.bannerTooWide) := by
  constructor
  · intro h
    have hne : ¬a.banner.isEmpty := by
      cases hb : a.banner with
      | nil => rw [hb] at h; simp [bannerWidth] at h
      | cons x xs => simp [hb]
    unfold render
    rw [if_neg hne, if_pos h]
  · intro h
    unfold render
    by_cases h1 : a.banner.isEmpty
    · rw [if_pos h1]
      simp
    rw [if_neg h1, if_neg (by omega)]
    by_cases ht : a.text.truthy = true
    · rw [if_pos ht]
      cases hwa : wrapAll ((cols : Int) - 2 * 10) a.text.toLines with
      | none => simp [renderWithText]
      | some textArr =>
        by_cases hh : rows < a.banner.length + textArr.length
        · simp [renderWithText, hh]
        · simp [renderWithText, hh]
    · rw [if_neg ht]
      simp

/-- Witness for C2: a three-column banner on a two-column terminal fails
immediately, with no events. -/
theorem C2_witness :
    2 < bannerWidth ["ABC"] ∧
      render ⟨["ABC"], none, none, none, TextArg.noText, none⟩ 1 2 =
        ([], some PyError.bannerTooWide) :=
  ⟨by decide, (C2_too_wide ⟨["ABC"], none, none, none, TextArg.noText, none⟩ 1 2).1 (by decide)⟩

/-- C3 counterexample: a two-line banner on a one-row terminal with no
body text does not raise "content too tall", although
`B + T = 2 + 0 > 1 = rows` — the height check only runs when `text` is
truthy. -/
theorem C3_cex :
    1 < List.length ["A", "A"] + 0 ∧
    (render ⟨["A", "A"], none, none, none, TextArg.noText, none⟩ 1 1).2 ≠
      some PyError.textTooTall := by
  decide

/-- C3 amended: when `text` is truthy (and wraps without error), the
"content too tall" error is raised iff `B + T > rows`; when `text` is
falsy the height check is skipped entirely, so the error can never be
raised, no matter how tall the banner is. -/
theorem C3_height_check (a : RenderArgs) (rows cols : Nat) (hne : a.banner ≠ [])
    (hw : bannerWidth a.banner ≤ cols) :
    (∀ textArr, a.text.truthy = true →
      wrapAll ((cols : Int) - 2 * 10) a.text.toLines = some textArr →
      ((render a rows cols).2 = some PyError.textTooTall ↔
        rows < a.banner.length + textArr.length)) ∧
    (a.text.truthy = false → (render a rows cols).2 ≠ some PyError.textTooTall) := by
  constructor
  · intro textArr ht hwa
    unfold render
    rw [if_neg (by simpa using hne), if_neg (by omega), if_pos ht, hwa]
    simp only [renderWithText]
    by_cases hh : rows < a.banner.length + textArr.length
    · rw [if_pos hh]
      simp [hh]
    · rw [if_neg hh]
      simp [hh]
  · intro ht
    unfold render
    rw [if_neg (by simpa using hne), if_neg (by omega), if_neg (by simp [ht])]
    simp

/-- Witness for C3: banner `["A"]`, text `"hi"`, 21 columns (wrap width
1, so the text wraps to two one-character lines) and one row:
`B + T = 3 > 1` and the error is raised. -/
theorem C3_witness :
    wrapAll ((21 : Int) - 2 * 10) (TextArg.ofString "hi").toLines = some ["h", "i"] ∧
    ((render ⟨["A"], none, none, none, TextArg.ofString "hi", none⟩ 1 21).2 =
      some PyError.textTooTall ↔ 1 < List.length ["A"] + List.length ["h", "i"]) :=
  ⟨by decide,
    (C3_height_check ⟨["A"], none, none, none, TextArg.ofString "hi", none⟩ 1 21
      (by decide) (by decide)).1 ["h", "i"] (by decide) (by decide)⟩

/-! ## Styling of banner lines -/

theorem formatBannerLine_none_none (lf cols : Nat) (l : String) :
    formatBannerLine none none lf cols l =
      spaces lf ++ l ++ spaces (cols - lf - l.length) := by
  simp [formatBannerLine, optTruthy]

theorem formatBannerLine_both (c b : String) (hc : c ≠ "") (hb : b ≠ "") (lf cols : Nat)
    (l : String) :
    formatBannerLine (some c) (some b) lf cols l =
      b ++ c ++ (spaces lf ++ l ++ spaces (cols - lf - l.length)) ++ RESET_COLOR := by
  simp [formatBannerLine, optTruthy, hc, hb, String.append_assoc]

theorem formatBannerLine_fg (c : String) (hc : c ≠ "") (lf cols : Nat) (l : String) :
    formatBannerLine (some c) none lf cols l =
      c ++ (spaces lf ++ l ++ spaces (cols - lf - l.length)) ++ RESET_COLOR := by
  simp [formatBannerLine, optTruthy, hc, String.append_assoc]

theorem formatBannerLine_bg (b : String) (hb : b ≠ "") (lf cols : Nat) (l : String) :
    formatBannerLine none (some b) lf cols l =
      b ++ (spaces lf ++ l ++ spaces (cols - lf - l.length)) ++ RESET_COLOR := by
  simp [formatBannerLine, optTruthy, hb, String.append_assoc]

/-- C4 counterexample: with `color = RED` and `color_bg = RED_BG` the
emitted banner line starts with the background code, then the foreground
code — not foreground first as claimed. -/
theorem C4_cex :
    (render ⟨["x"], none, some RED, some RED_BG, TextArg.noText, none⟩ 1 1).1 =
      [Event.clearScreen, Event.printLine (RED_BG ++ RED ++ "x" ++ RESET_COLOR)] ∧
    RED_BG ++ RED ++ "x" ++ RESET_COLOR ≠ RED ++ RED_BG ++ "x" ++ RESET_COLOR := by
  decide

/-- C4 amended: with both styles set every emitted banner line is the
background style code, then the foreground style code, then the padded
content, then exactly one reset; with a single style set, that style
code, then the padded content, then one reset. -/
theorem C4_style_order (banner : List String) (rows cols : Nat) (c b : String)
    (hne : banner ≠ []) (hw : bannerWidth banner ≤ cols) (hc : c ≠ "") (hb : b ≠ "") :
    ((render ⟨banner, none, some c, some b, TextArg.noText, none⟩ rows cols).1 =
      Event.clearScreen :: (banner.map (fun l => Event.printLine
        (b ++ c ++ (spaces (leftFill (bannerWidth banner) cols) ++ l ++
          spaces (cols - leftFill (bannerWidth banner) cols - l.length)) ++ RESET_COLOR)) ++
        fillEvents (some b) rows cols banner.length 0)) ∧
    (∀ lf l, formatBannerLine (some c) none lf cols l =
      c ++ (spaces lf ++ l ++ spaces (cols - lf - l.length)) ++ RESET_COLOR) ∧
    (∀ lf l, formatBannerLine none (some b) lf cols l =
      b ++ (spaces lf ++ l ++ spaces (cols - lf - l.length)) ++ RESET_COLOR) := by
  refine ⟨?_, fun lf l => formatBannerLine_fg c hc lf cols l,
    fun lf l => formatBannerLine_bg b hb lf cols l⟩
  have h := render_success ⟨banner, none, some c, some b, TextArg.noText, none⟩ rows cols hne hw
    [] (by simp [TextArg.truthy]) (by simp [TextArg.truthy])
  rw [h]
  simp [bannerEvents, textEvents, renderTail, soundEvents, sleepEvents, natTruthy, optTruthy,
    formatBannerLine_both c b hc hb]

/-- Witness for C4's amended claim: one-character banner, both styles. -/
theorem C4_witness :
    (render ⟨["x"], none, some RED, some RED_BG, TextArg.noText, none⟩ 3 1).1 =
      [Event.clearScreen, Event.printLine (RED_BG ++ RED ++ "x" ++ RESET_COLOR),
        Event.printLine (RED_BG ++ " " ++ RESET_COLOR)] :=
  ((C4_style_order ["x"] 3 1 RED RED_BG (by decide) (by decide) (by decide) (by decide)).1).trans
    (by decide)

/-! ## Counting printed lines -/

theorem printedLines_append (l1 l2 : List Event) :
    printedLines (l1 ++ l2) = printedLines l1 + printedLines l2 := by
  simp [printedLines, List.filter_append]

theorem printedLines_cons_clear (evs : List Event) :
    printedLines (Event.clearScreen :: evs) = printedLines evs := by
  simp [printedLines]

theorem printedLines_map (ls : List String) (f : String → String) :
    printedLines (ls.map (fun l => Event.printLine (f l))) = ls.length := by
  induction ls with
  | nil => rfl
  | cons x xs ih => simpa [printedLines, List.filter] using ih

theorem printedLines_replicate (n : Nat) (s : String) :
    printedLines (List.replicate n (Event.printLine s)) = n := by
  simp [printedLines, List.filter_replicate]

theorem printedLines_soundEvents (s : Option String) : printedLines (soundEvents s) = 0 := by
  unfold soundEvents
  split <;> simp [printedLines]

theorem printedLines_sleepEvents (o : Option Nat) : printedLines (sleepEvents o) = 0 := by
  unfold sleepEvents
  split <;> simp [printedLines]

/-- C6 counterexample: one-line banner, background set, one terminal row:
`B + T = 1 ≤ rows = 1`, but one line is printed, not `rows - 1 = 0` — the
fill loop cannot reach a total of `rows - 1` lines when `B + T = rows`. -/
theorem C6_cex :
    List.length ["A"] + 0 ≤ 1 ∧
    printedLines (render ⟨["A"], none, none, some RED_BG, TextArg.noText, none⟩ 1 1).1 ≠
      1 - 1 := by
  decide

/-- C6 amended: with a background style set (and a successful render),
the fill section consists of `rows - (B + T) - 1` full-width background
lines, so the total number of printed lines is `rows - 1` when
`B + T < rows`, and stays `B + T` (no fill lines) when `B + T = rows`. -/
theorem C6_fill (a : RenderArgs) (rows cols : Nat) (hne : a.banner ≠ [])
    (hw : bannerWidth a.banner ≤ cols) (hbg : optTruthy a.colorBg = true)
    (textArr : List String)
    (htext : (if a.text.truthy then wrapAll ((cols : Int) - 2 * 10) a.text.toLines
        else some []) = some textArr)
    (hht : a.banner.length + textArr.length ≤ rows) :
    (fillEvents a.colorBg rows cols a.banner.length textArr.length =
      List.replicate (rows - (a.banner.length + textArr.length) - 1)
        (Event.printLine (a.colorBg.getD "" ++ spaces cols ++ RESET_COLOR))) ∧
    printedLines (render a rows cols).1 =
      (if a.banner.length + textArr.length < rows then rows - 1
        else a.banner.length + textArr.length) := by
  have hcount : ((rows : Int) - (a.banner.length + textArr.length) - 1).toNat =
      rows - (a.banner.length + textArr.length) - 1 := by omega
  have hfill : fillEvents a.colorBg rows cols a.banner.length textArr.length =
      List.replicate (rows - (a.banner.length + textArr.length) - 1)
        (Event.printLine (a.colorBg.getD "" ++ spaces cols ++ RESET_COLOR)) := by
    unfold fillEvents
    rw [if_pos hbg, hcount]
  refine ⟨hfill, ?_⟩
  rw [render_success a rows cols hne hw textArr htext (fun _ => hht)]
  show printedLines (Event.clearScreen :: _) = _
  rw [printedLines_cons_clear, printedLines_append, printedLines_append]
  unfold renderTail
  rw [printedLines_append, printedLines_append, hfill, printedLines_replicate,
    printedLines_soundEvents, printedLines_sleepEvents]
  unfold bannerEvents textEvents
  rw [printedLines_map, printedLines_map]
  split <;> omega

/-- Witness for C6 at the spec's example: 5 rows, a one-line banner, no
text, background set — exactly 3 fill lines, 4 printed lines in all. -/
theorem C6_witness :
    (fillEvents (some RED_BG) 5 1 (List.length ["A"]) 0 =
      List.replicate (5 - (List.length ["A"] + 0) - 1)
        (Event.printLine ((some RED_BG).getD "" ++ spaces 1 ++ RESET_COLOR))) ∧
    printedLines (render ⟨["A"], none, none, some RED_BG, TextArg.noText, none⟩ 5 1).1 =
      (if List.length ["A"] + 0 < 5 then 5 - 1 else List.length ["A"] + 0) :=
  C6_fill ⟨["A"], none, none, some RED_BG, TextArg.noText, none⟩ 5 1
    (by decide) (by decide) (by decide) [] (by decide) (by decide)

/-- C7: every emitted text line is a ten-space margin, the wrapped line
centered in a field of `cols - 2 * 10` columns, and another ten-space
margin; each margin is wrapped in the background style and a reset
exactly when `color_bg` is set; the foreground style never appears. -/
theorem C7_text_format (a : RenderArgs) (rows cols : Nat) (hne : a.banner ≠ [])
    (hw : bannerWidth a.banner ≤ cols) (ht : a.text.truthy = true) (textArr : List String)
    (hwa : wrapAll ((cols : Int) - 2 * 10) a.text.toLines = some textArr)
    (hht : a.banner.length + textArr.length ≤ rows) :
    (render a rows cols).1 =
      (Event.clearScreen :: bannerEvents a cols) ++
        textArr.map (fun l => Event.printLine (
          (if optTruthy a.colorBg then a.colorBg.getD "" ++ spaces 10 ++ RESET_COLOR
            else spaces 10) ++
          String.mk (pyCenterFmt l.data (cols - 2 * 10)) ++
          (if optTruthy a.colorBg then a.colorBg.getD "" ++ spaces 10 ++ RESET_COLOR
            else spaces 10))) ++
        renderTail a rows cols textArr.length := by
  have h := render_success a rows cols hne hw textArr (by rw [if_pos ht, hwa]) (fun _ => hht)
  rw [h]
  simp [textEvents, formatTextLine]

/-- Witness for C7: banner `["A"]`, text `"hi"`, 24 columns, background
set — the text line is a styled margin, `" hi "` centered in 4 columns,
and another styled margin. -/
theorem C7_witness :
    (render ⟨["A"], none, none, some RED_BG, TextArg.ofString "hi", none⟩ 2 24).1 =
      [Event.clearScreen,
        Event.printLine (RED_BG ++ spaces 11 ++ "A" ++ spaces 12 ++ RESET_COLOR),
        Event.printLine (RED_BG ++ spaces 10 ++ RESET_COLOR ++ " hi " ++
          RED_BG ++ spaces 10 ++ RESET_COLOR)] :=
  (C7_text_format ⟨["A"], none, none, some RED_BG, TextArg.ofString "hi", none⟩ 2 24
    (by decide) (by decide) (by decide) ["hi"] (by decide) (by decide)).trans (by decide)

/-- C9: on every successful render the trace is exactly: one clear, then
all printed lines, then the blocking sound (iff a sound is given), then
sleep-and-clear (iff a duration is given) — in that order, with no pause
and no second clear when the duration is absent. -/
theorem C9_effect_order (a : RenderArgs) (rows cols : Nat)
    (h : (render a rows cols).2 = none) :
    ∃ lines : List String,
      (render a rows cols).1 =
        Event.clearScreen :: (lines.map Event.printLine ++
          ((if optTruthy a.sound then [Event.playSound (a.sound.getD "")] else []) ++
            (if natTruthy a.showFor then [Event.sleep (a.showFor.getD 0), Event.clearScreen]
              else []))) := by
  obtain ⟨hne, hw, textArr, htext, hht⟩ := render_success_inv a rows cols h
  have hr := render_success a rows cols hne hw textArr htext hht
  refine ⟨a.banner.map
      (fun l => formatBannerLine a.color a.colorBg (leftFill (bannerWidth a.banner) cols) cols l) ++
    textArr.map (fun l => formatTextLine a.colorBg cols l) ++
    (if optTruthy a.colorBg then
      List.replicate ((rows : Int) - (a.banner.length + textArr.length) - 1).toNat
        (a.colorBg.getD "" ++ spaces cols ++ RESET_COLOR)
      else []), ?_⟩
  rw [hr]
  by_cases hbg : optTruthy a.colorBg = true <;>
    simp [bannerEvents, textEvents, renderTail, fillEvents, soundEvents, sleepEvents, hbg,
      List.map_replicate, Function.comp_def]

/-- Witness for C9: a sound and a three-second duration — the trace ends
with the sound, the sleep and the second clear, in order. -/
theorem C9_witness :
    (render ⟨["A"], some 3, none, none, TextArg.noText, some "sounds/tada.wav"⟩ 1 1).2 = none ∧
    ∃ lines : List String,
      (render ⟨["A"], some 3, none, none, TextArg.noText, some "sounds/tada.wav"⟩ 1 1).1 =
        Event.clearScreen :: (lines.map Event.printLine ++
          ((if optTruthy (some "sounds/tada.wav") then
              [Event.playSound ((some "sounds/tada.wav").getD "")] else []) ++
            (if natTruthy (some 3) then [Event.sleep ((some 3).getD 0), Event.clearScreen]
              else []))) :=
  ⟨by decide,
    C9_effect_order ⟨["A"], some 3, none, none, TextArg.noText, some "sounds/tada.wav"⟩ 1 1
      (by decide)⟩

/-! ## Failure of the wrapping step on narrow terminals -/

theorem pySplitNLAux_ne_nil (acc l : List Char) : pySplitNLAux acc l ≠ [] := by
  induction l generalizing acc with
  | nil => simp [pySplitNLAux]
  | cons c cs ih =>
    unfold pySplitNLAux
    split
    · simp
    · exact ih _

theorem toLines_ne_nil (t : TextArg) (h : t.truthy = true) : t.toLines ≠ [] := by
  cases t with
  | noText => cases h
  | ofString s =>
    show pySplitNL s ≠ []
    unfold pySplitNL
    simp [pySplitNLAux_ne_nil]
  | ofList l =>
    have : ¬l.isEmpty := by simpa [TextArg.truthy] using h
    simpa [TextArg.toLines] using by simpa [List.isEmpty_iff] using this

theorem wrapAll_none_of_nonpos (width : Int) (lines : List String) (hw : width ≤ 0)
    (hne : lines ≠ []) : wrapAll width lines = none := by
  cases lines with
  | nil => exact absurd rfl hne
  | cons l ls =>
    have h1 : pyWrapStr width l = none := by
      simp [pyWrapStr, pyWrap, hw]
    simp [wrapAll, h1]

/-- C10: with a truthy `text` and at most 20 columns the wrap width
`cols - 2 * 10` is not positive, so the render fails with the `ValueError`
of `textwrap` — an error distinct from "banner too wide" and "content too
tall" — even though the banner itself fits. -/
theorem C10_text_narrow (a : RenderArgs) (rows cols : Nat) (hne : a.banner ≠ [])
    (hw : bannerWidth a.banner ≤ cols) (ht : a.text.truthy = true) (hcols : cols ≤ 20) :
    (render a rows cols).2 = some (PyError.invalidWidth ((cols : Int) - 2 * 10)) ∧
      PyError.invalidWidth ((cols : Int) - 2 * 10) ≠ PyError.bannerTooWide ∧
      PyError.invalidWidth ((cols : Int) - 2 * 10) ≠ PyError.textTooTall := by
  refine ⟨?_, by simp, by simp⟩
  unfold render
  rw [if_neg (by simpa using hne), if_neg (by omega), if_pos ht,
    wrapAll_none_of_nonpos _ _ (by omega) (toLines_ne_nil a.text ht)]
  simp [renderWithText]

/-! ## Structure of the chunk splitter -/

theorem mem_of_getLast?_eq {α : Type} {l : List α} {a : α} (h : l.getLast? = some a) :
    a ∈ l := by
  obtain ⟨h1, rfl⟩ := List.mem_getLast?_eq_getLast (show a ∈ l.getLast? by simp [Option.mem_def, h])
  exact List.getLast_mem h1

theorem flatten_filter_ne_nil (cs : List (List Char)) :
    (cs.filter (fun c => !c.isEmpty)).flatten = cs.flatten := by
  induction cs with
  | nil => rfl
  | cons x xs ih =>
    cases x with
    | nil => simpa [List.filter_cons] using ih
    | cons y ys => simp [List.filter_cons, ih]

theorem matchHyphenated_append {cs k r : List Char} (h : matchHyphenated cs = some (k, r)) :
    k ++ r = cs := by
  have hcs : cs.takeWhile isPunct ++ ((cs.dropWhile isPunct).takeWhile isWordChar ++
      (cs.dropWhile isPunct).dropWhile isWordChar) = cs := by
    rw [List.takeWhile_append_dropWhile, List.takeWhile_append_dropWhile]
  simp only [matchHyphenated] at h
  split at h
  · split at h
    · rename_i c rest heq
      split at h
      · rename_i hdash
        split at h
        · simp only [Option.some.injEq, Prod.mk.injEq] at h
          obtain ⟨hk, hr⟩ := h
          subst hk
          subst hr
          subst hdash
          rw [heq] at hcs
          simpa [List.append_assoc] using hcs
        · cases h
      · cases h
    · cases h
  · cases h

theorem matchEmdash_append {prev : Option Char} {cs k r : List Char}
    (h : matchEmdash prev cs = some (k, r)) : k ++ r = cs := by
  simp only [matchEmdash] at h
  split at h
  · cases h
  · split at h
    · split at h
      · split at h
        · split at h
          · simp only [Option.some.injEq, Prod.mk.injEq] at h
            obtain ⟨hk, hr⟩ := h
            subst hk
            subst hr
            exact List.takeWhile_append_dropWhile _ _
          · cases h
        · cases h
      · cases h
    · cases h

theorem scanGo_flatten (fuel : Nat) (prev : Option Char) (pend rest : List Char) :
    (scanGo fuel prev pend rest).flatten = pend.reverse ++ rest := by
  induction fuel generalizing prev pend rest with
  | zero => simp [scanGo]
  | succ n ih =>
    cases rest with
    | nil => simp [scanGo]
    | cons c cs =>
      simp only [scanGo]
      by_cases hws : isPyWs c = true
      · rw [if_pos hws]
        simp [ih, List.takeWhile_append_dropWhile]
      · rw [if_neg hws]
        cases hB : matchHyphenated (c :: cs) with
        | some kr =>
          obtain ⟨k, r⟩ := kr
          simp only [hB]
          have := matchHyphenated_append hB
          simp [ih, List.append_assoc, this]
        | none =>
          simp only [hB]
          cases hC : matchEmdash prev (c :: cs) with
          | some kr =>
            obtain ⟨k, r⟩ := kr
            simp only [hC]
            have := matchEmdash_append hC
            simp [ih, List.append_assoc, this]
          | none =>
            simp only [hC]
            rw [ih]
            simp

theorem pySplitChunks_flatten (s : List Char) : (pySplitChunks s).flatten = s := by
  unfold pySplitChunks
  rw [flatten_filter_ne_nil]
  simpa using scanGo_flatten (s.length + 1) none [] s

theorem pySplitChunks_ne_nil {s c : List Char} (h : c ∈ pySplitChunks s) : c ≠ [] := by
  unfold pySplitChunks at h
  have h2 := (List.mem_filter.mp h).2
  cases c with
  | nil => cases h2
  | cons y ys => simp

/-! ## The wrap loop on content that fits one line -/

theorem sumLen_cons (c : List Char) (cs : List (List Char)) :
    sumLen (c :: cs) = c.length + sumLen cs := rfl

theorem sumLen_eq_length_flatten (cs : List (List Char)) : sumLen cs = cs.flatten.length := by
  induction cs with
  | nil => rfl
  | cons c cs ih => simp [sumLen_cons, ih]

theorem greedyTake_all (width n : Nat) (cs : List (List Char))
    (h : n + sumLen cs ≤ width) : greedyTake width n cs = (cs, []) := by
  induction cs generalizing n with
  | nil => rfl
  | cons c cs ih =>
    have hs : sumLen (c :: cs) = c.length + sumLen cs := rfl
    unfold greedyTake
    rw [if_pos (by omega), ih (n + c.length) (by omega)]

theorem dropLastWs_eq_self {cs : List (List Char)} {lc : List Char}
    (h : cs.getLast? = some lc) (hw : isWsChunk lc = false) : dropLastWs cs = cs := by
  simp [dropLastWs, h, hw]

theorem wrapGo_nil (width f : Nat) (b : Bool) : wrapGo width f b [] = [] := by
  cases f <;> rfl

theorem exists_getLast_chunk : ∀ cs : List (List Char), (∀ c ∈ cs, c ≠ []) →
    ∀ ch : Char, cs.flatten.getLast? = some ch →
    ∃ lc, cs.getLast? = some lc ∧ ch ∈ lc := by
  intro cs
  induction cs with
  | nil =>
    intro _ ch hch
    simp at hch
  | cons c0 cs0 ih =>
    intro hne ch hch
    cases hcs : cs0 with
    | nil =>
      subst hcs
      refine ⟨c0, rfl, ?_⟩
      simp only [List.flatten_cons, List.flatten_nil, List.append_nil] at hch
      exact mem_of_getLast?_eq hch
    | cons c1 cs1 =>
      subst hcs
      have h5 : c1 ++ cs1.flatten ≠ [] := by
        have h6 : c1 ≠ [] := hne c1 (by simp)
        intro hx
        exact h6 (List.append_eq_nil.mp hx).1
      have h3 : ((c0 :: c1 :: cs1).flatten).getLast? = ((c1 :: cs1).flatten).getLast? := by
        simp only [List.flatten_cons]
        exact List.getLast?_append_of_ne_nil _ h5
      obtain ⟨lc, h1, h2⟩ := ih (fun c hc => hne c (by simp [hc])) ch (by rw [← h3]; exact hch)
      exact ⟨lc, by rw [List.getLast?_cons_cons]; exact h1, h2⟩

theorem wrapLine_take_all (width : Nat) (c0 : List Char) (cs0 : List (List Char))
    (hfit : sumLen (c0 :: cs0) ≤ width) (hdl : dropLastWs (c0 :: cs0) = c0 :: cs0) :
    wrapLine width (c0 :: cs0) = (some (c0 :: cs0).flatten, []) := by
  simp only [wrapLine]
  rw [greedyTake_all width 0 (c0 :: cs0) (by omega)]
  simp [hdl]

theorem wrapStep_take_all (width : Nat) (c0 : List Char) (cs0 : List (List Char))
    (hfit : sumLen (c0 :: cs0) ≤ width) (hdl : dropLastWs (c0 :: cs0) = c0 :: cs0) :
    wrapStep width false (c0 :: cs0) = (some (c0 :: cs0).flatten, []) := by
  show wrapLine width (c0 :: cs0) = _
  exact wrapLine_take_all width c0 cs0 hfit hdl

theorem wrapChunks_single (width : Nat) (c0 : List Char) (cs0 : List (List Char))
    (hfit : sumLen (c0 :: cs0) ≤ width) (hdl : dropLastWs (c0 :: cs0) = c0 :: cs0) :
    wrapChunks width (c0 :: cs0) = [(c0 :: cs0).flatten] := by
  unfold wrapChunks
  simp only [wrapGo]
  rw [wrapStep_take_all width c0 cs0 hfit hdl]
  simp [wrapGo_nil]

/-! ## Munging is the identity on plain-space text -/

theorem expandTabsGo_id (col : Nat) (l : List Char) (h : ∀ c ∈ l, c ≠ '\t') :
    expandTabsGo col l = l := by
  induction l generalizing col with
  | nil => rfl
  | cons c cs ih =>
    unfold expandTabsGo
    rw [if_neg (by simpa using h c (by simp))]
    have hrec : ∀ col2, expandTabsGo col2 cs = cs :=
      fun col2 => ih col2 (fun d hd => h d (by simp [hd]))
    split <;> rw [hrec]

theorem mungeWhitespace_id (l : List Char) (h : ∀ c ∈ l, isPyWs c = true → c = ' ') :
    mungeWhitespace l = l := by
  unfold mungeWhitespace
  rw [expandTabsGo_id 0 l (fun c hc ht => by
    have := h c hc
    rw [ht] at this
    exact absurd (this rfl) (by decide))]
  have : ∀ c ∈ l, (if isPyWs c then ' ' else c) = c := by
    intro c hc
    by_cases hw : isPyWs c = true
    · rw [if_pos hw, h c hc hw]
    · rw [if_neg hw]
  calc l.map (fun c => if isPyWs c then ' ' else c) = l.map id := List.map_congr_left this
    _ = l := List.map_id l

/-- C8 counterexample: the empty line is strictly shorter than wrap width
5 (columns 25), yet wraps to zero lines, not to one unchanged line. -/
theorem C8_cex :
    String.length "" < 5 ∧ pyWrapStr ((25 : Int) - 2 * 10) "" = some [] ∧
      ([] : List String) ≠ [""] := by
  decide

/-- C8 amended: a non-empty line strictly shorter than the wrap width,
whose whitespace characters are all plain spaces and which does not end
in whitespace, wraps to exactly one line, itself unchanged.  (The empty
line wraps to no line at all; trailing whitespace is dropped and tabs are
expanded, so those cases are excluded.) -/
theorem C8_short_line (width : Int) (l : String) (hne : l ≠ "")
    (hws : ∀ c ∈ l.data, isPyWs c = true → c = ' ')
    (hlast : ∀ c, l.data.getLast? = some c → isPyWs c = false)
    (hlen : (l.length : Int) < width) :
    pyWrapStr width l = some [l] := by
  have hlen0 : (l.length : Int) = (l.data.length : Int) := rfl
  have hdata : l.data ≠ [] := fun hd => hne (String.ext hd)
  have hmunge : mungeWhitespace l.data = l.data := mungeWhitespace_id l.data hws
  have hflat : (pySplitChunks l.data).flatten = l.data := pySplitChunks_flatten l.data
  obtain ⟨c0, cs0, hchunks⟩ : ∃ c0 cs0, pySplitChunks l.data = c0 :: cs0 := by
    cases hc : pySplitChunks l.data with
    | nil => rw [hc] at hflat; exact absurd hflat.symm hdata
    | cons c0 cs0 => exact ⟨c0, cs0, rfl⟩
  have hfit : sumLen (c0 :: cs0) ≤ width.toNat := by
    rw [← hchunks, sumLen_eq_length_flatten, hflat]
    omega
  have hdl : dropLastWs (c0 :: cs0) = c0 :: cs0 := by
    obtain ⟨ch, hch⟩ : ∃ ch, l.data.getLast? = some ch := by
      cases hg : l.data.getLast? with
      | none => exact absurd (List.getLast?_eq_none_iff.mp hg) hdata
      | some ch => exact ⟨ch, rfl⟩
    obtain ⟨lc, hlc1, hlc2⟩ : ∃ lc, (c0 :: cs0).getLast? = some lc ∧ ch ∈ lc := by
      refine exists_getLast_chunk (c0 :: cs0) ?_ ch ?_
      · intro c hc
        exact pySplitChunks_ne_nil (by rw [hchunks]; exact hc)
      · rw [hchunks] at hflat
        rw [hflat]
        exact hch
    have hlcw : isWsChunk lc = false := by
      by_contra hcontra
      have hall : lc.all isPyWs = true := by
        cases hiw : isWsChunk lc
        · exact absurd hiw hcontra
        · exact hiw
      have := List.all_eq_true.mp hall ch hlc2
      rw [hlast ch hch] at this
      cases this
    exact dropLastWs_eq_self hlc1 hlcw
  have hpos : ¬width ≤ 0 := by omega
  show (pyWrap width l.data).map (fun ls => ls.map (fun l => String.mk l)) = some [l]
  unfold pyWrap
  rw [if_neg hpos, hmunge, hchunks, wrapChunks_single width.toNat c0 cs0 hfit hdl, ← hchunks,
    hflat]
  rfl

/-- Witness for C8's amended claim: `"ab"` at wrap width 5 wraps to
itself alone. -/
theorem C8_witness : pyWrapStr 5 "ab" = some ["ab"] :=
  C8_short_line 5 "ab" (by decide) (by decide) (by decide) (by decide)

/-! ## The splitter on hyphen-free text: maximal runs -/

theorem matchHyphenated_dash {cs k r : List Char} (h : matchHyphenated cs = some (k, r)) :
    '-' ∈ cs := by
  simp only [matchHyphenated] at h
  split at h
  · split at h
    · rename_i c rest heq
      split at h
      · rename_i hdash
        subst hdash
        have h1 : '-' ∈ (cs.dropWhile isPunct).dropWhile isWordChar := by
          rw [heq]
          exact List.mem_cons_self _ _
        exact (List.dropWhile_sublist _).subset ((List.dropWhile_sublist _).subset h1)
      · cases h
    · cases h
  · cases h

theorem matchHyphenated_none {cs : List Char} (h : '-' ∉ cs) : matchHyphenated cs = none := by
  cases hm : matchHyphenated cs with
  | none => rfl
  | some kr =>
    obtain ⟨k, r⟩ := kr
    exact absurd (matchHyphenated_dash hm) h

theorem matchEmdash_none (prev : Option Char) {cs : List Char} (h : '-' ∉ cs) :
    matchEmdash prev cs = none := by
  have hd : cs.takeWhile (fun c => c = '-') = [] := by
    cases hh : cs.takeWhile (fun c => c = '-') with
    | nil => rfl
    | cons a tail =>
      exfalso
      have ha : a ∈ cs.takeWhile (fun c => c = '-') := by
        rw [hh]
        exact List.mem_cons_self a tail
      have ha2 : a = '-' := by simpa using List.mem_takeWhile_imp ha
      exact h (ha2 ▸ (List.takeWhile_sublist _).subset ha)
  cases prev with
  | none => rfl
  | some pc => simp [matchEmdash, hd]

theorem runsAux_acc_nil (c : Char) (cs : List Char) : runsAux [] (c :: cs) = runsAux [c] cs :=
  rfl

theorem runsAux_cons_same {a c : Char} (as cs : List Char) (h : isPyWs a = isPyWs c) :
    runsAux (a :: as) (c :: cs) = runsAux (c :: a :: as) cs := by
  show (if isPyWs a = isPyWs c then _ else _) = _
  rw [if_pos h]

theorem runsAux_cons_diff {a c : Char} (as cs : List Char) (h : ¬isPyWs a = isPyWs c) :
    runsAux (a :: as) (c :: cs) = (a :: as).reverse :: runsAux [c] cs := by
  show (if isPyWs a = isPyWs c then _ else _) = _
  rw [if_neg h]

theorem runsAux_run_ws (cs : List Char) : ∀ (a : Char) (as : List Char), isPyWs a = true →
    runsAux (a :: as) cs =
      ((a :: as).reverse ++ cs.takeWhile isPyWs) :: runsAux [] (cs.dropWhile isPyWs) := by
  induction cs with
  | nil =>
    intro a as _
    simp [runsAux]
  | cons c cs' ih =>
    intro a as ha
    by_cases hc : isPyWs c = true
    · rw [runsAux_cons_same as (c := c) cs' (by rw [ha, hc]), ih c (a :: as) hc,
        List.takeWhile_cons_of_pos hc, List.dropWhile_cons_of_pos hc]
      simp [List.append_assoc]
    · have hcf : isPyWs c = false := by simpa using hc
      rw [runsAux_cons_diff as cs' (by rw [ha, hcf]; simp),
        List.takeWhile_cons_of_neg (by simp [hcf]), List.dropWhile_cons_of_neg (by simp [hcf]),
        runsAux_acc_nil]
      simp

theorem runsAux_run_nonws (cs : List Char) : ∀ (a : Char) (as : List Char), isPyWs a = false →
    runsAux (a :: as) cs =
      ((a :: as).reverse ++ cs.takeWhile (fun x => !isPyWs x)) ::
        runsAux [] (cs.dropWhile (fun x => !isPyWs x)) := by
  induction cs with
  | nil =>
    intro a as _
    simp [runsAux]
  | cons c cs' ih =>
    intro a as ha
    by_cases hc : isPyWs c = true
    · rw [runsAux_cons_diff as cs' (by rw [ha, hc]; simp),
        List.takeWhile_cons_of_neg (by simp [hc]), List.dropWhile_cons_of_neg (by simp [hc]),
        runsAux_acc_nil]
      simp
    · have hcf : isPyWs c = false := by simpa using hc
      rw [runsAux_cons_same as (c := c) cs' (by rw [ha, hcf]), ih c (a :: as) hcf,
        List.takeWhile_cons_of_pos (by simp [hcf]), List.dropWhile_cons_of_pos (by simp [hcf])]
      simp [List.append_assoc]

theorem simpleRuns_cons_ws {c : Char} (cs : List Char) (hc : isPyWs c = true) :
    simpleRuns (c :: cs) =
      (c :: cs.takeWhile isPyWs) :: simpleRuns (cs.dropWhile isPyWs) := by
  show runsAux [] (c :: cs) = _
  rw [runsAux_acc_nil, runsAux_run_ws cs c [] hc]
  rfl

theorem simpleRuns_cons_nonws {c : Char} (cs : List Char) (hc : isPyWs c = false) :
    simpleRuns (c :: cs) =
      (c :: cs.takeWhile (fun x => !isPyWs x)) ::
        simpleRuns (cs.dropWhile (fun x => !isPyWs x)) := by
  show runsAux [] (c :: cs) = _
  rw [runsAux_acc_nil, runsAux_run_nonws cs c [] hc]
  rfl

theorem scanGo_runs : ∀ (fuel : Nat) (rest : List Char), rest.length < fuel → '-' ∉ rest →
    ∀ (prev : Option Char) (pend : List Char), (∀ x ∈ pend, isPyWs x = false) →
    (scanGo fuel prev pend rest).filter (fun c => !c.isEmpty) = runsAux pend rest := by
  intro fuel
  induction fuel with
  | zero =>
    intro rest h
    omega
  | succ n ih =>
    intro rest hlen hdash prev pend hpend
    cases rest with
    | nil =>
      cases pend with
      | nil => simp [scanGo, runsAux]
      | cons p ps => simp [scanGo, runsAux, List.filter_cons]
    | cons c cs =>
      simp only [scanGo]
      by_cases hws : isPyWs c = true
      · rw [if_pos hws]
        have hsub : '-' ∉ cs.dropWhile isPyWs := fun hx =>
          hdash (List.mem_cons_of_mem c ((List.dropWhile_sublist _).subset hx))
        have hlen2 : (cs.dropWhile isPyWs).length < n := by
          have h1 : (cs.dropWhile isPyWs).length ≤ cs.length :=
            (List.dropWhile_sublist isPyWs).length_le
          simp only [List.length_cons] at hlen
          omega
        rw [List.filter_cons, List.filter_cons,
          ih (cs.dropWhile isPyWs) hlen2 hsub _ [] (by simp)]
        have hrun : (!(c :: cs.takeWhile isPyWs).isEmpty) = true := by simp
        rw [if_pos hrun]
        cases pend with
        | nil =>
          rw [if_neg (by simp), runsAux_acc_nil, runsAux_run_ws cs c [] hws]
          rfl
        | cons p ps =>
          rw [if_pos (by simp),
            runsAux_cons_diff ps cs (by rw [hpend p (List.mem_cons_self p ps), hws]; simp),
            runsAux_run_ws cs c [] hws]
          rfl
      · have hwf : isPyWs c = false := by simpa using hws
        rw [if_neg hws]
        have hB := matchHyphenated_none (show '-' ∉ c :: cs from hdash)
        have hC := matchEmdash_none prev (show '-' ∉ c :: cs from hdash)
        simp only [hB, hC]
        rw [ih cs (by simp only [List.length_cons] at hlen; omega)
          (fun hx => hdash (List.mem_cons_of_mem c hx)) (some c) (c :: pend)
          (fun x hx => by
            rcases List.mem_cons.mp hx with h1 | h1
            · subst h1; exact hwf
            · exact hpend x h1)]
        cases pend with
        | nil => rfl
        | cons p ps =>
          rw [runsAux_cons_same ps cs (by rw [hpend p (List.mem_cons_self p ps), hwf])]

theorem pySplitChunks_eq_runs (t : List Char) (hdash : '-' ∉ t) :
    pySplitChunks t = simpleRuns t :=
  scanGo_runs (t.length + 1) t (by omega) hdash none [] (by simp)

/-! ## Words of concatenations -/

theorem pyWordsAux_cons_ws {x : Char} (hx : isPyWs x = true) (acc u : List Char) :
    pyWordsAux acc (x :: u) =
      (if acc.isEmpty then pyWordsAux [] u else acc.reverse :: pyWordsAux [] u) := by
  simp [pyWordsAux, hx]

theorem pyWordsAux_cons_word {x : Char} (hx : isPyWs x = false) (acc u : List Char) :
    pyWordsAux acc (x :: u) = pyWordsAux (x :: acc) u := by
  simp [pyWordsAux, hx]

theorem pyWords_cons_ws {x : Char} (hx : isPyWs x = true) (u : List Char) :
    pyWords (x :: u) = pyWords u := by
  simp [pyWords, pyWordsAux, hx]

theorem pyWordsAux_append_ws : ∀ (w : List Char), (∀ x ∈ w, isPyWs x = true) →
    ∀ u, pyWordsAux [] (w ++ u) = pyWordsAux [] u := by
  intro w
  induction w with
  | nil =>
    intro _ u
    rfl
  | cons x w' ih =>
    intro hall u
    have hx : isPyWs x = true := hall x (List.mem_cons_self x w')
    show pyWordsAux [] (x :: (w' ++ u)) = _
    simp only [pyWordsAux, hx, if_pos, List.isEmpty_nil, if_true]
    exact ih (fun y hy => hall y (List.mem_cons_of_mem x hy)) u

theorem pyWords_append_ws (w u : List Char) (hall : ∀ x ∈ w, isPyWs x = true) :
    pyWords (w ++ u) = pyWords u :=
  pyWordsAux_append_ws w hall u

theorem pyWords_dropWhile_ws : ∀ cs : List Char, pyWords (cs.dropWhile isPyWs) = pyWords cs := by
  intro cs
  induction cs with
  | nil => rfl
  | cons c cs' ih =>
    by_cases hc : isPyWs c = true
    · rw [List.dropWhile_cons_of_pos hc, ih, pyWords_cons_ws hc]
    · rw [List.dropWhile_cons_of_neg hc]

theorem pyWordsAux_acc_word : ∀ (m : List Char), (∀ x ∈ m, isPyWs x = false) →
    ∀ (acc u : List Char), pyWordsAux acc (m ++ u) = pyWordsAux (m.reverse ++ acc) u := by
  intro m
  induction m with
  | nil =>
    intro _ acc u
    rfl
  | cons x m' ih =>
    intro hall acc u
    have hx : isPyWs x = false := hall x (List.mem_cons_self x m')
    show pyWordsAux acc (x :: (m' ++ u)) = _
    rw [show pyWordsAux acc (x :: (m' ++ u)) = pyWordsAux (x :: acc) (m' ++ u) from by
      simp [pyWordsAux, hx]]
    rw [ih (fun y hy => hall y (List.mem_cons_of_mem x hy)) (x :: acc) u]
    rw [List.reverse_cons, List.append_assoc, List.singleton_append]

theorem pyWords_append_word (m u : List Char) (hm : m ≠ [])
    (hall : ∀ x ∈ m, isPyWs x = false)
    (hu : u = [] ∨ ∃ x xs, u = x :: xs ∧ isPyWs x = true) :
    pyWords (m ++ u) = m :: pyWords u := by
  show pyWordsAux [] (m ++ u) = _
  rw [pyWordsAux_acc_word m hall [] u, List.append_nil]
  rcases hu with rfl | ⟨x, xs, rfl, hx⟩
  · show (if m.reverse.isEmpty then [] else [m.reverse.reverse]) = [m]
    rw [if_neg (by simpa using hm)]
    simp
  · rw [pyWords_cons_ws hx, pyWordsAux_cons_ws hx,
      if_neg (by simpa using hm)]
    simp [pyWords]

theorem pyWordsAux_word_run (cs : List Char) : ∀ (a : Char) (as : List Char),
    pyWordsAux (a :: as) cs =
      ((a :: as).reverse ++ cs.takeWhile (fun x => !isPyWs x)) ::
        pyWords (cs.dropWhile (fun x => !isPyWs x)) := by
  induction cs with
  | nil =>
    intro a as
    show (if (a :: as).isEmpty then [] else [(a :: as).reverse]) = _
    simp [pyWords, pyWordsAux]
  | cons c cs' ih =>
    intro a as
    by_cases hc : isPyWs c = true
    · rw [pyWordsAux_cons_ws hc, if_neg (by simp), List.takeWhile_cons_of_neg (by simp [hc]),
        List.dropWhile_cons_of_neg (by simp [hc]), pyWords_cons_ws hc]
      simp [pyWords]
    · have hcf : isPyWs c = false := by simpa using hc
      rw [pyWordsAux_cons_word hcf, ih c (a :: as), List.takeWhile_cons_of_pos (by simp [hcf]),
        List.dropWhile_cons_of_pos (by simp [hcf])]
      simp [List.append_assoc]

theorem pyWords_cons_word {c : Char} (cs : List Char) (hc : isPyWs c = false) :
    pyWords (c :: cs) =
      (c :: cs.takeWhile (fun x => !isPyWs x)) ::
        pyWords (cs.dropWhile (fun x => !isPyWs x)) := by
  show pyWordsAux [] (c :: cs) = _
  rw [show pyWordsAux [] (c :: cs) = pyWordsAux [c] cs from by simp [pyWordsAux, hc]]
  rw [pyWordsAux_word_run cs c []]
  rfl

/-! ## Joining one line of chunks recovers its word chunks -/

theorem altOK_cons_ws {a : List Char} (l : List (List Char)) (ha : isWsChunk a = true) :
    altOK (a :: l) = altOK l := by
  cases l with
  | nil => rfl
  | cons b t => simp [altOK, ha]

theorem altOK_tail {a : List Char} {l : List (List Char)} (h : altOK (a :: l) = true) :
    altOK l = true := by
  cases l with
  | nil => rfl
  | cons b t =>
    have h2 : ((isWsChunk a || isWsChunk b) && altOK (b :: t)) = true := h
    have h3 : (isWsChunk a = true ∨ isWsChunk b = true) ∧ altOK (b :: t) = true := by
      simpa using h2
    exact h3.2

theorem pyWords_flatten_eq : ∀ cs : List (List Char), (∀ c ∈ cs, c ≠ []) →
    (∀ c ∈ cs, isWsChunk c = true ∨ nonWsChunk c = true) →
    altOK cs = true →
    pyWords cs.flatten = chunkWords cs := by
  intro cs
  induction cs with
  | nil =>
    intro _ _ _
    rfl
  | cons c cs' ih =>
    intro hne hhom halt
    have htail := ih (fun d hd => hne d (List.mem_cons_of_mem c hd))
      (fun d hd => hhom d (List.mem_cons_of_mem c hd)) (altOK_tail halt)
    by_cases hws : isWsChunk c = true
    · rw [List.flatten_cons,
        pyWords_append_ws c _ (fun x hx => List.all_eq_true.mp hws x hx), htail]
      simp [chunkWords, List.filter_cons, hws]
    · have hwsf : isWsChunk c = false := by simpa using hws
      have hnws : nonWsChunk c = true := by
        rcases hhom c (List.mem_cons_self c cs') with h | h
        · exact absurd h hws
        · exact h
      have hcne : c ≠ [] := hne c (List.mem_cons_self c cs')
      have hcall : ∀ x ∈ c, isPyWs x = false := fun x hx => by
        simpa using List.all_eq_true.mp hnws x hx
      have hu : cs'.flatten = [] ∨ ∃ x xs, cs'.flatten = x :: xs ∧ isPyWs x = true := by
        cases cs' with
        | nil => exact Or.inl rfl
        | cons d ds =>
          have hd : isWsChunk d = true := by
            have h2 : ((isWsChunk c || isWsChunk d) && altOK (d :: ds)) = true := halt
            have h3 : (isWsChunk c = true ∨ isWsChunk d = true) ∧ altOK (d :: ds) = true := by
              simpa using h2
            rcases h3.1 with h4 | h4
            · exact absurd h4 hws
            · exact h4
          have hdne : d ≠ [] := hne d (by simp)
          obtain ⟨x, xs', rfl⟩ : ∃ x xs', d = x :: xs' := by
            cases d with
            | nil => exact absurd rfl hdne
            | cons x xs' => exact ⟨x, xs', rfl⟩
          refine Or.inr ⟨x, xs' ++ ds.flatten, by simp, ?_⟩
          exact List.all_eq_true.mp hd x (by simp)
      rw [List.flatten_cons, pyWords_append_word c _ hcne hcall hu, htail]
      simp [chunkWords, List.filter_cons, hwsf]

/-! ## The runs of hyphen-free text satisfy the wrap invariant -/

theorem dropWhile_head_false {p : Char → Bool} : ∀ (l : List Char) {x : Char} {xs : List Char},
    l.dropWhile p = x :: xs → p x = false := by
  intro l
  induction l with
  | nil =>
    intro x xs h
    cases h
  | cons c cs ih =>
    intro x xs h
    by_cases hc : p c = true
    · rw [List.dropWhile_cons_of_pos hc] at h
      exact ih h
    · rw [List.dropWhile_cons_of_neg hc] at h
      injection h with h1 _
      subst h1
      simpa using hc

theorem simpleRuns_props : ∀ (n : Nat) (t : List Char), t.length ≤ n →
    (∀ c ∈ simpleRuns t, c ≠ []) ∧
    (∀ c ∈ simpleRuns t, isWsChunk c = true ∨ nonWsChunk c = true) ∧
    altOK (simpleRuns t) = true ∧
    chunkWords (simpleRuns t) = pyWords t := by
  intro n
  induction n with
  | zero =>
    intro t ht
    have h0 : t = [] := by
      cases t with
      | nil => rfl
      | cons a b => simp at ht
    subst h0
    exact ⟨by simp [simpleRuns, runsAux], by simp [simpleRuns, runsAux], rfl, rfl⟩
  | succ n ih =>
    intro t ht
    cases t with
    | nil => exact ih [] (by simp)
    | cons c cs =>
      simp only [List.length_cons] at ht
      by_cases hc : isPyWs c = true
      · rw [simpleRuns_cons_ws cs hc]
        have hlen : (cs.dropWhile isPyWs).length ≤ n :=
          le_trans (List.dropWhile_sublist isPyWs).length_le (by omega)
        obtain ⟨ih1, ih2, ih3, ih4⟩ := ih (cs.dropWhile isPyWs) hlen
        have hrun : isWsChunk (c :: cs.takeWhile isPyWs) = true := by
          refine List.all_eq_true.mpr ?_
          intro x hx
          rcases List.mem_cons.mp hx with h1 | h1
          · subst h1; exact hc
          · exact List.mem_takeWhile_imp h1
        refine ⟨?_, ?_, ?_, ?_⟩
        · intro d hd
          rcases List.mem_cons.mp hd with h1 | h1
          · subst h1; simp
          · exact ih1 d h1
        · intro d hd
          rcases List.mem_cons.mp hd with h1 | h1
          · subst h1; exact Or.inl hrun
          · exact ih2 d h1
        · rw [altOK_cons_ws _ hrun]
          exact ih3
        · rw [show chunkWords ((c :: cs.takeWhile isPyWs) :: simpleRuns (cs.dropWhile isPyWs)) =
              chunkWords (simpleRuns (cs.dropWhile isPyWs)) from by
            simp [chunkWords, List.filter_cons, hrun], ih4, pyWords_dropWhile_ws,
            pyWords_cons_ws hc]
      · have hcf : isPyWs c = false := by simpa using hc
        rw [simpleRuns_cons_nonws cs hcf]
        have hlen : (cs.dropWhile (fun x => !isPyWs x)).length ≤ n :=
          le_trans (List.dropWhile_sublist _).length_le (by omega)
        obtain ⟨ih1, ih2, ih3, ih4⟩ := ih (cs.dropWhile (fun x => !isPyWs x)) hlen
        have hrunw : nonWsChunk (c :: cs.takeWhile (fun x => !isPyWs x)) = true := by
          refine List.all_eq_true.mpr ?_
          intro x hx
          rcases List.mem_cons.mp hx with h1 | h1
          · subst h1; simp [hcf]
          · simpa using List.mem_takeWhile_imp h1
        have hrunnw : isWsChunk (c :: cs.takeWhile (fun x => !isPyWs x)) = false := by
          simp [isWsChunk, hcf]
        refine ⟨?_, ?_, ?_, ?_⟩
        · intro d hd
          rcases List.mem_cons.mp hd with h1 | h1
          · subst h1; simp
          · exact ih1 d h1
        · intro d hd
          rcases List.mem_cons.mp hd with h1 | h1
          · subst h1; exact Or.inr hrunw
          · exact ih2 d h1
        · cases hrest : cs.dropWhile (fun x => !isPyWs x) with
          | nil =>
            simp [simpleRuns, runsAux, altOK]
          | cons x xs =>
            have hx : isPyWs x = true := by
              have := dropWhile_head_false cs hrest
              simpa using this
            rw [hrest] at ih3
            rw [simpleRuns_cons_ws xs hx] at ih3 ⊢
            have hxr : isWsChunk (x :: xs.takeWhile isPyWs) = true := by
              refine List.all_eq_true.mpr ?_
              intro y hy
              rcases List.mem_cons.mp hy with h1 | h1
              · subst h1; exact hx
              · exact List.mem_takeWhile_imp h1
            show ((isWsChunk _ || isWsChunk _) && altOK _) = true
            rw [hxr]
            simp only [Bool.or_true, Bool.true_and]
            exact ih3
        · rw [show chunkWords ((c :: cs.takeWhile (fun x => !isPyWs x)) ::
              simpleRuns (cs.dropWhile (fun x => !isPyWs x))) =
              (c :: cs.takeWhile (fun x => !isPyWs x)) ::
                chunkWords (simpleRuns (cs.dropWhile (fun x => !isPyWs x))) from by
            simp [chunkWords, List.filter_cons, hrunnw], ih4, pyWords_cons_word cs hcf]

/-- Witness for C10: text `"hi"` on a five-column terminal — the render
fails with `invalid width -15`. -/
theorem C10_witness :
    (render ⟨["A"], none, none, none, TextArg.ofString "hi", none⟩ 9 5).2 =
      some (PyError.invalidWidth ((5 : Int) - 2 * 10)) :=
  (C10_text_narrow ⟨["A"], none, none, none, TextArg.ofString "hi", none⟩ 9 5
    (by decide) (by decide) (by decide) (by decide)).1

/-! ## One iteration of the wrap loop conserves the word chunks -/

theorem chunkMeasure_cons (c : List Char) (cs : List (List Char)) :
    chunkMeasure (c :: cs) = c.length + 1 + chunkMeasure cs := rfl

theorem chunkMeasure_append (l1 l2 : List (List Char)) :
    chunkMeasure (l1 ++ l2) = chunkMeasure l1 + chunkMeasure l2 := by
  induction l1 with
  | nil => simp [chunkMeasure]
  | cons c cs ih =>
    rw [List.cons_append, chunkMeasure_cons, chunkMeasure_cons, ih]
    omega

theorem chunkMeasure_eq_sumLen (cs : List (List Char)) :
    chunkMeasure cs = sumLen cs + cs.length := by
  induction cs with
  | nil => rfl
  | cons c cs ih =>
    rw [chunkMeasure_cons, sumLen_cons, ih, List.length_cons]
    omega

theorem chunkWords_cons_ws {c : List Char} (cs : List (List Char)) (hc : isWsChunk c = true) :
    chunkWords (c :: cs) = chunkWords cs := by
  simp [chunkWords, List.filter_cons, hc]

theorem chunkWords_append (l1 l2 : List (List Char)) :
    chunkWords (l1 ++ l2) = chunkWords l1 ++ chunkWords l2 := by
  simp [chunkWords, List.filter_append]

theorem greedyTake_cons_fit {width n : Nat} {c : List Char} {cs : List (List Char)}
    (h : n + c.length ≤ width) :
    greedyTake width n (c :: cs) =
      (c :: (greedyTake width (n + c.length) cs).1, (greedyTake width (n + c.length) cs).2) := by
  simp [greedyTake, h]

theorem greedyTake_cons_stop {width n : Nat} {c : List Char} {cs : List (List Char)}
    (h : ¬n + c.length ≤ width) :
    greedyTake width n (c :: cs) = ([], c :: cs) := by
  simp [greedyTake, h]

theorem greedyTake_append (width : Nat) : ∀ (n : Nat) (cs : List (List Char)),
    (greedyTake width n cs).1 ++ (greedyTake width n cs).2 = cs := by
  intro n cs
  induction cs generalizing n with
  | nil => rfl
  | cons c cs' ih =>
    by_cases h : n + c.length ≤ width
    · rw [greedyTake_cons_fit h]
      simpa using ih (n + c.length)
    · rw [greedyTake_cons_stop h]
      simp

theorem greedyTake_fst_nil {width n : Nat} {c : List Char} {cs : List (List Char)}
    (h : (greedyTake width n (c :: cs)).1 = []) : width < n + c.length := by
  by_contra hcon
  rw [greedyTake_cons_fit (by omega)] at h
  cases h

theorem altOK_append : ∀ {l1 l2 : List (List Char)}, altOK (l1 ++ l2) = true →
    altOK l1 = true ∧ altOK l2 = true := by
  intro l1
  induction l1 with
  | nil =>
    intro l2 h
    exact ⟨rfl, h⟩
  | cons a l1' ih =>
    intro l2 h
    cases l1' with
    | nil => exact ⟨rfl, altOK_tail h⟩
    | cons b t =>
      have h2 : ((isWsChunk a || isWsChunk b) && altOK (b :: (t ++ l2))) = true := h
      have h3 : (isWsChunk a = true ∨ isWsChunk b = true) ∧ altOK (b :: (t ++ l2)) = true := by
        simpa using h2
      obtain ⟨ha1, ha2⟩ := ih (show altOK ((b :: t) ++ l2) = true from h3.2)
      refine ⟨?_, ha2⟩
      show ((isWsChunk a || isWsChunk b) && altOK (b :: t)) = true
      rcases h3.1 with h4 | h4 <;> simp [h4, ha1]

theorem goodChunks_nil (width : Nat) : goodChunks width [] :=
  ⟨by simp, by simp, by simp, rfl⟩

theorem goodChunks_append {width : Nat} {l1 l2 : List (List Char)}
    (h : goodChunks width (l1 ++ l2)) : goodChunks width l1 ∧ goodChunks width l2 := by
  obtain ⟨h1, h2, h3, h4⟩ := h
  obtain ⟨h5, h6⟩ := altOK_append h4
  exact ⟨⟨fun c hc => h1 c (List.mem_append_left _ hc),
      fun c hc => h2 c (List.mem_append_left _ hc),
      fun c hc => h3 c (List.mem_append_left _ hc), h5⟩,
    ⟨fun c hc => h1 c (List.mem_append_right _ hc),
      fun c hc => h2 c (List.mem_append_right _ hc),
      fun c hc => h3 c (List.mem_append_right _ hc), h6⟩⟩

theorem dropLastWs_concat (as : List (List Char)) (a : List Char) :
    dropLastWs (as ++ [a]) = if isWsChunk a = true then as else as ++ [a] := by
  unfold dropLastWs
  rw [List.getLast?_concat]
  show (if isWsChunk a = true then (as ++ [a]).dropLast else as ++ [a]) = _
  rw [List.dropLast_concat]

theorem chunkWords_dropLastWs (cs : List (List Char)) :
    chunkWords (dropLastWs cs) = chunkWords cs := by
  induction cs using List.reverseRecOn with
  | nil => rfl
  | append_singleton as a _ =>
    rw [dropLastWs_concat]
    by_cases ha : isWsChunk a = true
    · rw [if_pos ha]
      simp [chunkWords, List.filter_append, ha]
    · rw [if_neg ha]

theorem goodChunks_dropLastWs {width : Nat} {cs : List (List Char)}
    (h : goodChunks width cs) : goodChunks width (dropLastWs cs) := by
  induction cs using List.reverseRecOn with
  | nil => exact h
  | append_singleton as a _ =>
    rw [dropLastWs_concat]
    by_cases ha : isWsChunk a = true
    · rw [if_pos ha]
      exact (goodChunks_append h).1
    · rw [if_neg ha]
      exact h

theorem dropLastWs_concat_ws (t : List (List Char)) (p : List Char) (hp : isWsChunk p = true) :
    dropLastWs (t ++ [p]) = t := by
  rw [dropLastWs_concat, if_pos hp]

theorem emit_line_spec (width : Nat) (t : List (List Char)) (hgt : goodChunks width t) :
    (∀ line, (if t.isEmpty then none else some t.flatten) = some line →
      pyWords line = chunkWords t) ∧
    ((if t.isEmpty then (none : Option (List Char)) else some t.flatten) = none →
      chunkWords t = []) := by
  constructor
  · intro line hline
    by_cases he : t.isEmpty = true
    · rw [if_pos he] at hline
      cases hline
    · rw [if_neg he] at hline
      injection hline with h2
      subst h2
      exact pyWords_flatten_eq t hgt.1 hgt.2.1 hgt.2.2.2
  · intro hnone
    by_cases he : t.isEmpty = true
    · rw [List.isEmpty_iff.mp he]
      rfl
    · rw [if_neg he] at hnone
      cases hnone

theorem wrapLine_spec (width : Nat) (hw1 : 1 ≤ width) (d : List Char) (ds : List (List Char))
    (hg : goodChunks width (d :: ds)) :
    goodChunks width (wrapLine width (d :: ds)).2 ∧
    chunkMeasure (wrapLine width (d :: ds)).2 < chunkMeasure (d :: ds) ∧
    (∀ line, (wrapLine width (d :: ds)).1 = some line →
      pyWords line ++ chunkWords (wrapLine width (d :: ds)).2 = chunkWords (d :: ds)) ∧
    ((wrapLine width (d :: ds)).1 = none →
      chunkWords (wrapLine width (d :: ds)).2 = chunkWords (d :: ds)) := by
  rcases hgt : greedyTake width 0 (d :: ds) with ⟨t, r⟩
  have happ : t ++ r = d :: ds := by
    have h0 := greedyTake_append width 0 (d :: ds)
    rw [hgt] at h0
    exact h0
  have hgood : goodChunks width t ∧ goodChunks width r := by
    rw [← happ] at hg
    exact goodChunks_append hg
  have hwords : chunkWords (d :: ds) = chunkWords t ++ chunkWords r := by
    rw [← happ, chunkWords_append]
  have hmeas : chunkMeasure (d :: ds) = chunkMeasure t + chunkMeasure r := by
    rw [← happ, chunkMeasure_append]
  cases r with
  | nil =>
    have ht : t = d :: ds := by simpa using happ
    have h1 : (wrapLine width (d :: ds)).1 =
        (if (dropLastWs t).isEmpty then none else some (dropLastWs t).flatten) := by
      simp only [wrapLine, hgt]
    have h2 : (wrapLine width (d :: ds)).2 = [] := by
      simp only [wrapLine, hgt]
    obtain ⟨hem1, hem2⟩ := emit_line_spec width (dropLastWs t)
      (goodChunks_dropLastWs hgood.1)
    rw [h1, h2]
    refine ⟨goodChunks_nil width, ?_, ?_, ?_⟩
    · show (0 : Nat) < chunkMeasure (d :: ds)
      rw [chunkMeasure_cons]
      omega
    · intro line hl
      rw [hem1 line hl, chunkWords_dropLastWs, ht]
      simp [chunkWords]
    · intro hnone
      have h3 := hem2 hnone
      rw [chunkWords_dropLastWs] at h3
      rw [← ht, h3]
      rfl
  | cons r0 rs =>
    by_cases hlong : width < r0.length
    · have hr0ws : isWsChunk r0 = true := by
        by_contra hcon
        have h5 := hgood.2.2.2.1 r0 (List.mem_cons_self r0 rs) (by simpa using hcon)
        omega
      have hsl : (if width < 1 then 1 else width - sumLen t) = width - sumLen t :=
        if_neg (by omega)
      have hpiecews : isWsChunk (r0.take (width - sumLen t)) = true :=
        List.all_eq_true.mpr (fun x hx =>
          List.all_eq_true.mp hr0ws x ((List.take_sublist _ _).subset hx))
      have h1 : (wrapLine width (d :: ds)).1 =
          (if t.isEmpty then none else some t.flatten) := by
        simp only [wrapLine, hgt, hsl]
        rw [if_pos hlong]
        simp only [dropLastWs_concat_ws t _ hpiecews]
      have h2 : (wrapLine width (d :: ds)).2 = r0.drop (width - sumLen t) :: rs := by
        simp only [wrapLine, hgt, hsl]
        rw [if_pos hlong]
      have hdropws : isWsChunk (r0.drop (width - sumLen t)) = true :=
        List.all_eq_true.mpr (fun x hx =>
          List.all_eq_true.mp hr0ws x ((List.drop_subset _ _) hx))
      have hdroplen : (r0.drop (width - sumLen t)).length = r0.length - (width - sumLen t) :=
        List.length_drop _ _
      have hdropne : r0.drop (width - sumLen t) ≠ [] := by
        intro hcon
        rw [hcon] at hdroplen
        simp at hdroplen
        omega
      obtain ⟨hem1, hem2⟩ := emit_line_spec width t hgood.1
      have hgr := hgood.2
      have haltrs : altOK rs = true := by
        have h5 := hgr.2.2.2
        rw [altOK_cons_ws rs hr0ws] at h5
        exact h5
      have hrest2 : goodChunks width (r0.drop (width - sumLen t) :: rs) := by
        refine ⟨?_, ?_, ?_, ?_⟩
        · intro c hc
          rcases List.mem_cons.mp hc with h5 | h5
          · subst h5
            exact hdropne
          · exact hgr.1 c (List.mem_cons_of_mem _ h5)
        · intro c hc
          rcases List.mem_cons.mp hc with h5 | h5
          · subst h5
            exact Or.inl hdropws
          · exact hgr.2.1 c (List.mem_cons_of_mem _ h5)
        · intro c hc h6
          rcases List.mem_cons.mp hc with h5 | h5
          · subst h5
            rw [hdropws] at h6
            cases h6
          · exact hgr.2.2.1 c (List.mem_cons_of_mem _ h5) h6
        · rw [altOK_cons_ws rs hdropws]
          exact haltrs
      have hwrest2 : chunkWords (r0.drop (width - sumLen t) :: rs) = chunkWords (r0 :: rs) := by
        rw [chunkWords_cons_ws rs hdropws, chunkWords_cons_ws rs hr0ws]
      have hmt : chunkMeasure t = sumLen t + t.length := chunkMeasure_eq_sumLen t
      rw [h1, h2]
      refine ⟨hrest2, ?_, ?_, ?_⟩
      · rw [hmeas, chunkMeasure_cons, chunkMeasure_cons, hdroplen]
        by_cases h5 : t = []
        · have h6 : sumLen t = 0 := by rw [h5]; rfl
          omega
        · have h6 : 1 ≤ t.length := by
            cases t with
            | nil => exact absurd rfl h5
            | cons x xs => simp
          omega
      · intro line hl
        rw [hem1 line hl, hwords, hwrest2]
      · intro hnone
        rw [hwords, hem2 hnone, hwrest2]
        rfl
    · have ht_ne : t ≠ [] := by
        intro hcon
        subst hcon
        have h5 : r0 :: rs = d :: ds := by simpa using happ
        have h6 := greedyTake_fst_nil (show (greedyTake width 0 (d :: ds)).1 = [] from by
          rw [hgt])
        injection h5 with h7 _
        subst h7
        omega
      have h1 : (wrapLine width (d :: ds)).1 =
          (if (dropLastWs t).isEmpty then none else some (dropLastWs t).flatten) := by
        simp only [wrapLine, hgt]
        rw [if_neg hlong]
      have h2 : (wrapLine width (d :: ds)).2 = r0 :: rs := by
        simp only [wrapLine, hgt]
        rw [if_neg hlong]
      obtain ⟨hem1, hem2⟩ := emit_line_spec width (dropLastWs t)
        (goodChunks_dropLastWs hgood.1)
      have hmt1 : 1 ≤ chunkMeasure t := by
        cases t with
        | nil => exact absurd rfl ht_ne
        | cons x xs =>
          rw [chunkMeasure_cons]
          omega
      rw [h1, h2]
      refine ⟨hgood.2, ?_, ?_, ?_⟩
      · rw [hmeas]
        omega
      · intro line hl
        have h5 := hem1 line hl
        rw [chunkWords_dropLastWs] at h5
        rw [h5, hwords]
      · intro hnone
        have h5 := hem2 hnone
        rw [chunkWords_dropLastWs] at h5
        rw [hwords, h5]
        rfl

/-! ## The whole wrap loop conserves the word sequence -/

theorem wrapGo_words (width : Nat) (hw1 : 1 ≤ width) : ∀ (fuel : Nat) (cs : List (List Char))
    (started : Bool), chunkMeasure cs < fuel → goodChunks width cs →
    ((wrapGo width fuel started cs).map (fun l => pyWords l)).flatten = chunkWords cs := by
  intro fuel
  induction fuel with
  | zero =>
    intro cs started hf _
    omega
  | succ n ih =>
    intro cs started hf hg
    cases cs with
    | nil => simp [wrapGo, chunkWords]
    | cons c0 cs0 =>
      by_cases hb : (started && isWsChunk c0) = true
      · have hc0ws : isWsChunk c0 = true := by
          have h0 : started = true ∧ isWsChunk c0 = true := by simpa using hb
          exact h0.2
        have hstep2 : wrapStep width started (c0 :: cs0) = wrapLine width cs0 := by
          show wrapLine width (if started && isWsChunk c0 then cs0 else c0 :: cs0) = _
          rw [if_pos hb]
        have hW : chunkWords cs0 = chunkWords (c0 :: cs0) :=
          (chunkWords_cons_ws cs0 hc0ws).symm
        have hG : goodChunks width cs0 :=
          (goodChunks_append (show goodChunks width ([c0] ++ cs0) from hg)).2
        have hM : chunkMeasure cs0 < chunkMeasure (c0 :: cs0) := by
          rw [chunkMeasure_cons]
          omega
        cases cs0 with
        | nil =>
          have hfin : wrapGo width (n + 1) started [c0] = wrapGo width n started [] := by
            simp only [wrapGo]
            rw [hstep2]
            rfl
          rw [hfin, wrapGo_nil, ← hW]
          rfl
        | cons d ds =>
          rcases hlr : wrapLine width (d :: ds) with ⟨lo, rest⟩
          have hlr1 : (wrapLine width (d :: ds)).1 = lo := by rw [hlr]
          have hlr2 : (wrapLine width (d :: ds)).2 = rest := by rw [hlr]
          obtain ⟨hGr, hMr, hsome, hnone⟩ := wrapLine_spec width hw1 d ds hG
          rw [hlr2] at hGr hMr
          rw [hlr1, hlr2] at hsome hnone
          have hstep3 : wrapStep width started (c0 :: d :: ds) = (lo, rest) := by
            rw [hstep2, hlr]
          have hMr2 : chunkMeasure rest < n := by
            have h9 : chunkMeasure (d :: ds) < chunkMeasure (c0 :: d :: ds) := hM
            omega
          cases lo with
          | none =>
            have hred : wrapGo width (n + 1) started (c0 :: d :: ds) =
                wrapGo width n started rest := by
              simp only [wrapGo]
              rw [hstep3]
            rw [hred, ih rest started hMr2 hGr, hnone rfl, hW]
          | some line =>
            have hred : wrapGo width (n + 1) started (c0 :: d :: ds) =
                line :: wrapGo width n true rest := by
              simp only [wrapGo]
              rw [hstep3]
            rw [hred, List.map_cons, List.flatten_cons, ih rest true hMr2 hGr, ← hW]
            exact hsome line rfl
      · have hstep2 : wrapStep width started (c0 :: cs0) = wrapLine width (c0 :: cs0) := by
          show wrapLine width (if started && isWsChunk c0 then cs0 else c0 :: cs0) = _
          rw [if_neg hb]
        rcases hlr : wrapLine width (c0 :: cs0) with ⟨lo, rest⟩
        have hlr1 : (wrapLine width (c0 :: cs0)).1 = lo := by rw [hlr]
        have hlr2 : (wrapLine width (c0 :: cs0)).2 = rest := by rw [hlr]
        obtain ⟨hGr, hMr, hsome, hnone⟩ := wrapLine_spec width hw1 c0 cs0 hg
        rw [hlr2] at hGr hMr
        rw [hlr1, hlr2] at hsome hnone
        have hstep3 : wrapStep width started (c0 :: cs0) = (lo, rest) := by
          rw [hstep2, hlr]
        have hMr2 : chunkMeasure rest < n := by omega
        cases lo with
        | none =>
          have hred : wrapGo width (n + 1) started (c0 :: cs0) =
              wrapGo width n started rest := by
            simp only [wrapGo]
            rw [hstep3]
          rw [hred, ih rest started hMr2 hGr, hnone rfl]
        | some line =>
          have hred : wrapGo width (n + 1) started (c0 :: cs0) =
              line :: wrapGo width n true rest := by
            simp only [wrapGo]
            rw [hstep3]
          rw [hred, List.map_cons, List.flatten_cons, ih rest true hMr2 hGr]
          exact hsome line rfl

/-! ## Munging preserves the word sequence -/

theorem mem_expandTabsGo : ∀ (t : List Char) (col : Nat) (c : Char),
    c ∈ expandTabsGo col t → c = ' ' ∨ c ∈ t := by
  intro t
  induction t with
  | nil =>
    intro col c h
    cases h
  | cons x xs ih =>
    intro col c h
    unfold expandTabsGo at h
    by_cases hx : x = '\t'
    · rw [if_pos hx] at h
      rcases List.mem_append.mp h with h1 | h1
      · exact Or.inl (List.eq_of_mem_replicate h1)
      · rcases ih _ c h1 with h2 | h2
        · exact Or.inl h2
        · exact Or.inr (List.mem_cons_of_mem x h2)
    · rw [if_neg hx] at h
      split at h <;>
      · rcases List.mem_cons.mp h with h1 | h1
        · subst h1
          exact Or.inr (List.mem_cons_self _ _)
        · rcases ih _ c h1 with h2 | h2
          · exact Or.inl h2
          · exact Or.inr (List.mem_cons_of_mem x h2)

theorem mem_mungeWhitespace {t : List Char} {c : Char} (h : c ∈ mungeWhitespace t) :
    c = ' ' ∨ c ∈ t := by
  unfold mungeWhitespace at h
  obtain ⟨x, hx1, hx2⟩ := List.mem_map.mp h
  by_cases hws : isPyWs x = true
  · rw [if_pos hws] at hx2
    exact Or.inl hx2.symm
  · rw [if_neg hws] at hx2
    subst hx2
    exact mem_expandTabsGo t 0 x hx1

theorem pyWordsAux_translate : ∀ (t : List Char) (acc : List Char),
    pyWordsAux acc (t.map (fun c => if isPyWs c then ' ' else c)) = pyWordsAux acc t := by
  intro t
  induction t with
  | nil =>
    intro acc
    rfl
  | cons x xs ih =>
    intro acc
    by_cases hx : isPyWs x = true
    · rw [List.map_cons, if_pos hx, pyWordsAux_cons_ws (show isPyWs ' ' = true from by decide),
        pyWordsAux_cons_ws hx, ih []]
    · have hxf : isPyWs x = false := by simpa using hx
      rw [List.map_cons, if_neg hx, pyWordsAux_cons_word hxf, pyWordsAux_cons_word hxf,
        ih (x :: acc)]

theorem pyWordsAux_expandTabs : ∀ (t : List Char) (col : Nat) (acc : List Char),
    pyWordsAux acc (expandTabsGo col t) = pyWordsAux acc t := by
  intro t
  induction t with
  | nil =>
    intro col acc
    rfl
  | cons x xs ih =>
    intro col acc
    unfold expandTabsGo
    by_cases hx : x = '\t'
    · rw [if_pos hx]
      subst hx
      obtain ⟨m, hm⟩ : ∃ m, 8 - col % 8 = m + 1 := ⟨8 - col % 8 - 1, by omega⟩
      rw [hm, List.replicate_succ, List.cons_append,
        pyWordsAux_cons_ws (show isPyWs ' ' = true from by decide),
        pyWordsAux_cons_ws (show isPyWs '\t' = true from by decide),
        pyWordsAux_append_ws (List.replicate m ' ')
          (fun y hy => by rw [List.eq_of_mem_replicate hy]; decide),
        ih (col + (m + 1)) []]
    · rw [if_neg hx]
      by_cases hnl : (x = '\n' || x = '\r') = true
      · have hxws : isPyWs x = true := by
          have h2 : x = '\n' ∨ x = '\r' := by simpa using hnl
          rcases h2 with h3 | h3 <;> rw [h3] <;> decide
        rw [if_pos hnl, pyWordsAux_cons_ws hxws, pyWordsAux_cons_ws hxws, ih 0 []]
      · rw [if_neg hnl]
        by_cases hxw : isPyWs x = true
        · rw [pyWordsAux_cons_ws hxw, pyWordsAux_cons_ws hxw, ih (col + 1) []]
        · have hxf : isPyWs x = false := by simpa using hxw
          rw [pyWordsAux_cons_word hxf, pyWordsAux_cons_word hxf, ih (col + 1) (x :: acc)]

theorem pyWords_munge (t : List Char) : pyWords (mungeWhitespace t) = pyWords t := by
  unfold mungeWhitespace
  show pyWordsAux [] _ = pyWordsAux [] t
  rw [pyWordsAux_translate (expandTabsGo 0 t) [], pyWordsAux_expandTabs t 0 []]

theorem flatten_mem_decomp {α : Type} : ∀ (L : List (List α)) (x : List α), x ∈ L →
    ∃ pre post, L.flatten = pre ++ (x ++ post) := by
  intro L
  induction L with
  | nil =>
    intro x h
    cases h
  | cons y ys ih =>
    intro x h
    rcases List.mem_cons.mp h with h1 | h1
    · subst h1
      exact ⟨[], ys.flatten, by simp⟩
    · obtain ⟨pre, post, hpp⟩ := ih x h1
      exact ⟨y ++ pre, post, by simp [List.flatten_cons, hpp, List.append_assoc]⟩

/-- C5 counterexample: on a 23-column terminal the wrap width is 3, the
single token `abcdef` is longer than that, and `break_long_words` splits
it: the wrapped lines' words are `abc` and `def`, which neither form a
contiguous subsequence of `[abcdef]` nor flatten back to it. -/
theorem C5_cex :
    pyWrapStr ((23 : Int) - 2 * 10) "abcdef" = some ["abc", "def"] ∧
    pyWordsStr "abcdef" = ["abcdef"] ∧
    (["abc", "def"].map pyWordsStr).flatten ≠ pyWordsStr "abcdef" := by
  decide

/-- C5 amended: for a paragraph without hyphen characters whose
whitespace-delimited tokens each fit the (positive) wrap width, wrapping
succeeds, no token is split — the concatenation of the wrapped lines'
word sequences is exactly the paragraph's word sequence, and each wrapped
line's words are a contiguous segment of it.  (A token longer than the
width is instead broken by `break_long_words`, and hyphenated words may
be split at a hyphen, per the counterexample.) -/
theorem C5_no_token_split (width : Int) (s : String)
    (hdash : ∀ c ∈ s.data, c ≠ '-')
    (htok : ∀ w ∈ pyWords s.data, (w.length : Int) ≤ width)
    (hw : 0 < width) :
    ∃ ls, pyWrapStr width s = some ls ∧
      ((ls.map (fun l => pyWords l.data)).flatten = pyWords s.data) ∧
      (∀ l ∈ ls, ∃ pre post, pyWords s.data = pre ++ (pyWords l.data ++ post)) := by
  have hw1 : 1 ≤ width.toNat := by omega
  have hmdash : '-' ∉ mungeWhitespace s.data := by
    intro hmem
    rcases mem_mungeWhitespace hmem with h1 | h1
    · exact absurd h1 (by decide)
    · exact hdash '-' h1 rfl
  have hchunks : pySplitChunks (mungeWhitespace s.data) = simpleRuns (mungeWhitespace s.data) :=
    pySplitChunks_eq_runs _ hmdash
  obtain ⟨hp1, hp2, hp3, hp4⟩ := simpleRuns_props (mungeWhitespace s.data).length
    (mungeWhitespace s.data) (le_refl _)
  have hwordsmunge : pyWords (mungeWhitespace s.data) = pyWords s.data := pyWords_munge s.data
  have hgood : goodChunks width.toNat (simpleRuns (mungeWhitespace s.data)) := by
    refine ⟨hp1, hp2, ?_, hp3⟩
    intro c hc hcw
    have hcnw : c ∈ chunkWords (simpleRuns (mungeWhitespace s.data)) := by
      simp [chunkWords, List.mem_filter, hc, hcw]
    rw [hp4, hwordsmunge] at hcnw
    have h5 := htok c hcnw
    omega
  have hflatten := wrapGo_words width.toNat hw1
    (chunkMeasure (pySplitChunks (mungeWhitespace s.data)) + 1)
    (pySplitChunks (mungeWhitespace s.data)) false (by omega)
    (by rw [hchunks]; exact hgood)
  have hflat2 : ((wrapChunks width.toNat (pySplitChunks (mungeWhitespace s.data))).map
      (fun l => pyWords l)).flatten = pyWords s.data := by
    unfold wrapChunks
    rw [hflatten, hchunks, hp4, hwordsmunge]
  refine ⟨(wrapChunks width.toNat (pySplitChunks (mungeWhitespace s.data))).map
    (fun l => String.mk l), ?_, ?_, ?_⟩
  · show (pyWrap width s.data).map _ = _
    unfold pyWrap
    rw [if_neg (by omega)]
    rfl
  · rw [List.map_map]
    have hcomp : ((fun l : String => pyWords l.data) ∘ fun l => String.mk l) =
        (fun l => pyWords l) := by
      funext l
      rfl
    rw [hcomp]
    exact hflat2
  · intro l hl
    obtain ⟨l0, hl0, rfl⟩ := List.mem_map.mp hl
    have hmem2 : pyWords (String.mk l0).data ∈
        (wrapChunks width.toNat (pySplitChunks (mungeWhitespace s.data))).map
          (fun l => pyWords l) :=
      List.mem_map.mpr ⟨l0, hl0, rfl⟩
    obtain ⟨pre, post, hpp⟩ := flatten_mem_decomp _ _ hmem2
    exact ⟨pre, post, by rw [← hflat2, hpp]⟩

/-- Witness for C5's amended claim: `"ab cd"` at wrap width 2. -/
theorem C5_witness :
    ∃ ls, pyWrapStr 2 "ab cd" = some ls ∧
      ((ls.map (fun l => pyWords l.data)).flatten = pyWords "ab cd".data) ∧
      (∀ l ∈ ls, ∃ pre post, pyWords "ab cd".data = pre ++ (pyWords l.data ++ post)) :=
  C5_no_token_split 2 "ab cd" (by decide) (by decide) (by decide)

end UptaneBanners
